/-
Verification development for the retrieval/caching and scheduling engines of
an agentic study assistant.  The Python sources are embedded shallowly:
  app/tools/embedding_cache.py   (persistent embedding cache)
  app/tools/faiss_index.py       (flat similarity index with filtered search)
  app/tools/rag_scout.py         (evidence extraction and topic enrichment)
  app/tools/intelligent_planner.py (load analysis)
  app/tools/study_planner.py     (multi-exam scheduling and day packing)
  app/models/plan.py, app/models/enriched_coverage.py (data models)
External collaborators (the md5 digest primitive, the embedding provider, the
faiss native search kernel, the question generator) are passed as function
parameters.  Keys and texts are strings; embedding vectors are an abstract
type parameter.
-/
import Mathlib

namespace App

/-- State of one on-disk artifact: absent, unreadable, or readable content.
An unreadable artifact models a file whose read raises an exception in the
Python source (caught and turned into a cache miss). -/
inductive FileState (α : Type) where
  | missing : FileState α
  | corrupt : FileState α
  | good : α → FileState α
deriving Repr, DecidableEq

/-- The embedding-cache directory: per chunk id, a vector artifact
(chunk_id.npy) and a digest artifact (chunk_id.meta) holding the stored
text hash, mirroring embedding_cache.py. -/
structure CacheState (α : Type) where
  vecFile : String → FileState α
  metaFile : String → FileState String

/-- Embeds load_cached_embedding of app/tools/embedding_cache.py.  The digest
primitive get_text_hash (md5 hex prefix in the source) is the parameter
hash.  Returns (embedding or none, cache_valid): a missing vector file is a
miss; an unreadable vector or digest file raises, is caught, and is a miss; a
present digest file is stripped and compared with the digest of the given
text (mismatch is a miss); a missing digest file is treated as a valid hit
(the backward-compatibility branch of the source). -/
def load_cached_embedding {α : Type} (hash : String → String) (st : CacheState α)
    (chunk_id text : String) : Option α × Bool :=
  match st.vecFile chunk_id with
  | .missing => (none, false)
  | .corrupt => (none, false)
  | .good embedding =>
    match st.metaFile chunk_id with
    | .missing => (some embedding, true)
    | .corrupt => (none, false)
    | .good stored =>
      if stored.trim = hash text then (some embedding, true) else (none, false)

/-- Embeds save_embedding_to_cache of app/tools/embedding_cache.py: writes the
vector artifact and the digest artifact for one chunk id. -/
def save_embedding_to_cache {α : Type} (hash : String → String) (st : CacheState α)
    (chunk_id text : String) (embedding : α) : CacheState α :=
  { vecFile := fun k => if k = chunk_id then .good embedding else st.vecFile k
    metaFile := fun k => if k = chunk_id then .good (hash text) else st.metaFile k }

/-- Modelled from the spec: the Chunk record of section 3 of the design
document.  The defining module app/models/chunks.py is not among the supplied
sources (only its users are), so the fields follow the spec sentence
"Chunk: chunk_id (unique), file_id, filename, page_start, page_end,
chapter_number?, chapter_title?, token_count, text". -/
structure Chunk where
  chunk_id : String
  file_id : String
  filename : String
  page_start : Int
  page_end : Int
  chapter_number : Option Int
  chapter_title : Option String
  token_count : Int
  text : String
deriving Repr, DecidableEq

/-- The stats dictionary returned by get_or_compute_embeddings. -/
structure CacheStats where
  total : Nat
  cached : Nat
  computed : Nat
deriving Repr, DecidableEq

/-- The cache-checking loop of get_or_compute_embeddings (first phase):
walks the chunks with a running index and returns the per-position outcome
list (some embedding for hits, none placeholders for misses), the texts to
embed, and the indices to embed, each in original order. -/
def scan_cache {α : Type} (hash : String → String) (st : CacheState α) :
    List Chunk → Nat → List (Option α) × List String × List Nat
  | [], _ => ([], [], [])
  | chunk :: rest, idx =>
    let r := scan_cache hash st rest (idx + 1)
    match load_cached_embedding hash st chunk.chunk_id chunk.text with
    | (some e, true) => (some e :: r.1, r.2.1, r.2.2)
    | _ => (none :: r.1, chunk.text :: r.2.1, idx :: r.2.2)

/-- The write-back loop of get_or_compute_embeddings (second phase): for each
(index, computed vector) pair, place the vector at its original position in
the outcome list and persist it (vector plus digest) for the chunk at that
index.  The source indexes chunks[idx] directly; the index is always in
range, the none branch is unreachable. -/
def insert_computed {α : Type} (hash : String → String) (chunks : List Chunk) :
    List (Nat × α) → List (Option α) → CacheState α → List (Option α) × CacheState α
  | [], lst, st => (lst, st)
  | (idx, v) :: rest, lst, st =>
    match chunks[idx]? with
    | some chunk =>
      insert_computed hash chunks rest (lst.set idx (some v))
        (save_embedding_to_cache hash st chunk.chunk_id chunk.text v)
    | none => insert_computed hash chunks rest lst st

/-- Embeds get_or_compute_embeddings of app/tools/embedding_cache.py.
Partitions chunks into cache hits and misses (scan_cache), calls the
embedding provider embed_function on the miss texts only when there is at
least one miss, merges computed vectors back into their original positions
and persists each of them (insert_computed), and returns the ordered vector
array together with the stats dictionary and the updated cache directory. -/
def get_or_compute_embeddings {α : Type} (hash : String → String)
    (embed_function : List String → List α) (chunks : List Chunk) (st : CacheState α) :
    List (Option α) × CacheStats × CacheState α :=
  let scanned := scan_cache hash st chunks 0
  let embeddings_list := scanned.1
  let texts_to_embed := scanned.2.1
  let indices_to_embed := scanned.2.2
  let cached := embeddings_list.countP (fun o => o.isSome)
  if texts_to_embed.isEmpty then
    (embeddings_list, ⟨chunks.length, cached, 0⟩, st)
  else
    let new_embeddings := embed_function texts_to_embed
    let merged := insert_computed hash chunks (indices_to_embed.zip new_embeddings) embeddings_list st
    (merged.1, ⟨chunks.length, cached, texts_to_embed.length⟩, merged.2)

/-- One row of the persisted row-to-metadata mapping built by
build_chunk_mapping of app/tools/faiss_index.py (the chunk fields without
the text). -/
structure ChunkMeta where
  chunk_id : String
  file_id : String
  filename : String
  page_start : Int
  page_end : Int
  chapter_number : Option Int
  chapter_title : Option String
  token_count : Int
deriving Repr, DecidableEq

/-- The chapter_number entry of the filters dictionary of search_index: the
Python value is either a single int or a list/tuple of ints. -/
inductive ChapterFilter where
  | one : Int → ChapterFilter
  | many : List Int → ChapterFilter
deriving Repr, DecidableEq

/-- The filters dictionary accepted by search_index: each key is optional.
A Python call with filters=None (or an empty falsy dict) is modelled by
passing none for the whole structure. -/
structure Filters where
  chapter_number : Option ChapterFilter
  file_id : Option String
  min_score : Option Int
deriving Repr, DecidableEq

/-- One element of the result list of search_index. -/
structure SearchResult where
  chunk_id : String
  score : Int
  file_id : String
  filename : String
  page_start : Int
  page_end : Int
  chapter_number : Option Int
  chapter_title : Option String
  token_count : Int
deriving Repr, DecidableEq

/-- The in-loop filter checks of search_index, in source order: chapter
(exact value, or membership for a list filter; a row with no chapter never
matches a chapter filter), then file id, then minimum score (a row is
dropped when score < min_score). -/
def passes_filters (f : Filters) (score : Int) (meta : ChunkMeta) : Bool :=
  (match f.chapter_number with
   | none => true
   | some (.one c) => meta.chapter_number = some c
   | some (.many cs) =>
     match meta.chapter_number with
     | some c => cs.contains c
     | none => false) &&
  (match f.file_id with
   | none => true
   | some fid => meta.file_id = fid) &&
  (match f.min_score with
   | none => true
   | some m => !(score < m))

/-- The result dictionary constructed for an accepted row of search_index. -/
def mk_search_result (score : Int) (meta : ChunkMeta) : SearchResult :=
  { chunk_id := meta.chunk_id
    score := score
    file_id := meta.file_id
    filename := meta.filename
    page_start := meta.page_start
    page_end := meta.page_end
    chapter_number := meta.chapter_number
    chapter_title := meta.chapter_title
    token_count := meta.token_count }

/-- The candidate loop of search_index: walks the raw (score, row) pairs
returned by the native index, skips the -1 padding rows and rows absent from
the mapping, applies the filters when present, collects accepted results in
order, and stops as soon as top_k results have been collected. -/
def search_loop (mapping : Int → Option ChunkMeta) (top_k : Nat)
    (filters : Option Filters) :
    List (Int × Int) → List SearchResult → List SearchResult
  | [], acc => acc.reverse
  | (score, idx) :: rest, acc =>
    if idx = -1 then search_loop mapping top_k filters rest acc
    else
      match mapping idx with
      | none => search_loop mapping top_k filters rest acc
      | some meta =>
        let keep := match filters with
          | none => true
          | some f => passes_filters f score meta
        if keep then
          let acc2 := mk_search_result score meta :: acc
          if top_k ≤ acc2.length then acc2.reverse
          else search_loop mapping top_k filters rest acc2
        else search_loop mapping top_k filters rest acc

/-- Embeds search_index of app/tools/faiss_index.py.  The native flat index
(query normalization plus exact inner-product scan) is the external
parameter index_search, a function from the requested candidate count to the
ranked raw (score, row) candidate list; search_index requests top_k * 3
candidates when filters are present (post-filtering headroom) and top_k
otherwise, then runs the filtering loop. -/
def search_index (index_search : Nat → List (Int × Int))
    (mapping : Int → Option ChunkMeta) (top_k : Nat)
    (filters : Option Filters) : List SearchResult :=
  let search_k := match filters with
    | some _ => top_k * 3
    | none => top_k
  search_loop mapping top_k filters (index_search search_k) []

/-- The merge loop of consolidate_page_ranges of app/tools/rag_scout.py:
walks the sorted distinct pages with a current [start, stop] range, extending
it while the next page is within gap_tolerance of the current stop and
closing it otherwise; the final range is appended at the end. -/
def consolidate_ranges_loop (gap_tolerance : Int) :
    List Int → Int → Int → List (Int × Int)
  | [], start, stop => [(start, stop)]
  | p :: rest, start, stop =>
    if p - stop ≤ gap_tolerance then consolidate_ranges_loop gap_tolerance rest start p
    else (start, stop) :: consolidate_ranges_loop gap_tolerance rest p p

/-- Embeds consolidate_page_ranges of app/tools/rag_scout.py: the empty input
returns the empty list; otherwise the pages are deduplicated and sorted
(sorted(set(pages)) in the source; the sorted distinct sequence is computed
here with insertionSort over dedup, which yields the same list) and merged
into closed ranges by consolidate_ranges_loop. -/
def consolidate_page_ranges (pages : List Int) (gap_tolerance : Int) : List (Int × Int) :=
  match pages with
  | [] => []
  | _ :: _ =>
    match List.insertionSort (· ≤ ·) pages.dedup with
    | [] => []
    | p0 :: rest => consolidate_ranges_loop gap_tolerance rest p0 p0

/-- The ReadingPages model of app/models/enriched_coverage.py; a page range
[start, end] is modelled as a pair. -/
structure ReadingPages where
  file_id : String
  filename : String
  page_ranges : List (Int × Int)
deriving Repr, DecidableEq

/-- The PracticeProblem model of app/models/enriched_coverage.py. -/
structure PracticeProblem where
  file_id : String
  filename : String
  page : Int
  snippet : String
deriving Repr, DecidableEq

/-- The EnrichedTopic model of app/models/enriched_coverage.py.  The float
confidence score is modelled as a rational. -/
structure EnrichedTopic where
  chapter : Int
  chapter_title : String
  bullet : String
  reading_pages : ReadingPages
  practice_problems : List PracticeProblem
  key_terms : List String
  confidence_score : ℚ
  chunks_retrieved : Nat
  notes : String
  top_chunks : List String
deriving Repr, DecidableEq

/-- The list of integers of the Python expression range(a, b + 1), that is
a, a+1, ..., b (empty when b < a). -/
def int_range_incl (a b : Int) : List Int :=
  (List.range (b + 1 - a).toNat).map (fun i => a + (i : Int))

/-- The filters dictionary built at the start of enrich_topic: always a
minimum score; a chapter filter only when chapter filtering is on and the
chapter number is truthy (nonzero). -/
def enrich_filters (use_chapter_filter : Bool) (chapter_number : Int)
    (min_score : Int) : Filters :=
  { chapter_number :=
      if use_chapter_filter && chapter_number ≠ 0 then some (.one chapter_number) else none
    file_id := none
    min_score := some min_score }

/-- Embeds enrich_topic of app/tools/rag_scout.py.  External collaborators
are parameters: embed_query (the embedding provider in query mode) and
index_search (the native flat-index scan, given a query vector and a
candidate count).  The two regex-driven extractors of the same module,
extract_practice_problems and extract_key_terms, are abstracted as the
parameters extract_problems (applied to the retrieved chunks with
max_problems = 5) and extract_terms (applied to the first five retrieved
chunks with top_k = 8); the claims settled here do not depend on their
bodies.  The chunk store (chunks_path in the source) is the parameter
all_chunks; the dict comprehension keyed by chunk id keeps the last chunk
for a duplicated id, hence the reversed lookup. -/
def enrich_topic {Q : Type} (embed_query : String → Q)
    (index_search : Q → Nat → List (Int × Int))
    (extract_problems : List Chunk → Nat → List PracticeProblem)
    (extract_terms : List Chunk → Nat → List String)
    (mapping : Int → Option ChunkMeta) (all_chunks : List Chunk)
    (topic_bullet : String) (chapter_number : Int) (chapter_title : String)
    (top_k : Nat) (min_score : Int) (use_chapter_filter : Bool)
    (fallback_threshold : Nat) : EnrichedTopic :=
  let query_embedding := embed_query topic_bullet
  let filters1 := enrich_filters use_chapter_filter chapter_number min_score
  let results1 := search_index (index_search query_embedding) mapping top_k (some filters1)
  let results :=
    if use_chapter_filter && results1.length < fallback_threshold then
      search_index (index_search query_embedding) mapping top_k
        (some { filters1 with chapter_number := none })
    else results1
  match results with
  | [] =>
    { chapter := chapter_number
      chapter_title := chapter_title
      bullet := topic_bullet
      reading_pages := ⟨"", "", []⟩
      practice_problems := []
      key_terms := []
      confidence_score := 0
      chunks_retrieved := 0
      notes := "No relevant chunks found above threshold"
      top_chunks := [] }
  | _ :: _ =>
    let retrieved_chunks := results.filterMap
      (fun r => all_chunks.reverse.find? (fun c => c.chunk_id = r.chunk_id))
    let avg_score : ℚ := ((results.map (fun r => r.score)).sum : ℚ) / (results.length : ℚ)
    let all_pages := retrieved_chunks.flatMap (fun c => int_range_incl c.page_start c.page_end)
    let page_ranges := consolidate_page_ranges all_pages 3
    let first_chunk := retrieved_chunks.head?
    let reading_pages : ReadingPages :=
      { file_id := (first_chunk.map (fun c => c.file_id)).getD ""
        filename := (first_chunk.map (fun c => c.filename)).getD ""
        page_ranges := page_ranges }
    let practice_problems := extract_problems retrieved_chunks 5
    let key_terms := extract_terms (retrieved_chunks.take 5) 8
    let top_chunk_excerpts := (retrieved_chunks.take 3).map (fun c =>
      let excerpt := c.text.trim
      if 400 < excerpt.length then excerpt.take 400 ++ "..." else excerpt)
    let notes := if avg_score < 6/10 then
        "Low confidence: textbook may not align well with this objective"
      else ""
    { chapter := chapter_number
      chapter_title := chapter_title
      bullet := topic_bullet
      reading_pages := reading_pages
      practice_problems := practice_problems
      key_terms := key_terms
      confidence_score := avg_score
      chunks_retrieved := results.length
      notes := notes
      top_chunks := top_chunk_excerpts }

/-- Modelled from the spec: the ordered Priority enum of section 3
("critical > high > medium > low > optional").  The defining module
app.models.plan exposes Priority to its importers in the repository, but the
enum body is not among the supplied sources. -/
inductive Priority where
  | critical : Priority
  | high : Priority
  | medium : Priority
  | low : Priority
  | optional : Priority
deriving Repr, DecidableEq

/-- The priority_order dictionary of generate_multi_exam_plan
(critical 0, high 1, medium 2, low 3, optional 4). -/
def priority_rank : Priority → Nat
  | .critical => 0
  | .high => 1
  | .medium => 2
  | .low => 3
  | .optional => 4

/-- The ExamInfo model of app/models/plan.py. -/
structure ExamInfo where
  exam_id : String
  exam_name : String
  exam_date : Option String
  course : String
  source_file_id : String
deriving Repr, DecidableEq

/-- The PracticeProblemRef model of app/models/plan.py. -/
structure PracticeProblemRef where
  text : String
  page : Int
deriving Repr, DecidableEq

/-- The StudyBlock model of app/models/plan.py.  The model declares exactly
these fields; it has no priority or priority_reason field, and the pydantic
base configuration silently ignores unexpected keyword arguments, so the
extra priority arguments its callers pass never reach the stored record. -/
structure StudyBlock where
  exam_id : String
  exam_name : String
  course : String
  chapter : Int
  chapter_title : String
  topic : String
  objective : String
  reading_pages : String
  practice_problems : List PracticeProblemRef
  key_terms : List String
  study_question : String
  time_estimate_minutes : Int
  confidence_score : ℚ
  notes : String
deriving Repr, DecidableEq

/-- The StudyDay model of app/models/plan.py.  The calendar is modelled as a
day ordinal whose weekday index is the ordinal modulo 7 (Monday 0 ... Sunday
6, the convention of Python date.weekday); the day_name field stores that
weekday index in place of the weekday string. -/
structure StudyDay where
  date : Nat
  day_name : Nat
  total_minutes : Int
  blocks : List StudyBlock
deriving Repr, DecidableEq

/-- Embeds StudyDay.add_block of app/models/plan.py: appends the block and
adds its time estimate to the running day total. -/
def StudyDay.add_block (day : StudyDay) (block : StudyBlock) : StudyDay :=
  { day with
    blocks := day.blocks ++ [block]
    total_minutes := day.total_minutes + block.time_estimate_minutes }

/-- Embeds estimate_time_minutes of app/tools/study_planner.py. -/
def estimate_time_minutes (topic : EnrichedTopic) (chapter : Int) : Int :=
  let minutes : Int := 30
  let minutes := if 2 < topic.practice_problems.length then minutes + 20
    else if 0 < topic.practice_problems.length then minutes + 10 else minutes
  let minutes := if chapter ≤ 3 then minutes + 15 else minutes
  let minutes := if topic.confidence_score < 7/10 then minutes + 10 else minutes
  minutes

/-- Embeds format_reading_pages of app/tools/study_planner.py. -/
def format_reading_pages (topic : EnrichedTopic) : String :=
  if topic.reading_pages.page_ranges.isEmpty then ""
  else
    let filename := topic.reading_pages.filename
    let short_name :=
      if 1 < (filename.splitOn " - ").length then
        ((filename.splitOn " - ").headD "").trim
      else ((filename.splitOn ".").headD "").take 20
    let ranges := topic.reading_pages.page_ranges.map (fun r =>
      if r.1 = r.2 then "p. " ++ toString r.1
      else "pp. " ++ toString r.1 ++ "-" ++ toString r.2)
    short_name ++ ", " ++ String.intercalate ", " ranges

/-- Embeds format_practice_problems of app/tools/study_planner.py: the first
five problems, each with a stripped snippet. -/
def format_practice_problems (topic : EnrichedTopic) : List PracticeProblemRef :=
  if topic.practice_problems.isEmpty then []
  else (topic.practice_problems.take 5).map (fun prob => ⟨prob.snippet.trim, prob.page⟩)

/-- Embeds create_study_block of app/tools/study_planner.py.  The question
generator (generate_study_question, an external provider call) is the
parameter qgen.  A time_override of none or 0 falls back to the heuristic
estimate (Python truthiness of the optional int).  The priority and
priority_reason arguments are accepted exactly as in the source; the
StudyBlock constructor has no such fields and discards them. -/
def create_study_block (qgen : String → List String → String → String)
    (topic : EnrichedTopic) (exam_info : ExamInfo) (generate_questions : Bool)
    (priority : Priority) (priority_reason : String)
    (time_override : Option Int) : StudyBlock :=
  let time_minutes := match time_override with
    | some t => if t = 0 then estimate_time_minutes topic topic.chapter else t
    | none => estimate_time_minutes topic topic.chapter
  let reading := format_reading_pages topic
  let problems := format_practice_problems topic
  let study_question :=
    if generate_questions && !topic.top_chunks.isEmpty then
      qgen topic.bullet topic.top_chunks topic.chapter_title
    else ""
  let notes :=
    if topic.confidence_score < 6/10 && topic.notes = "" then
      "⚠️ Low confidence match - verify coverage in textbook"
    else topic.notes
  { exam_id := exam_info.exam_id
    exam_name := exam_info.exam_name
    course := exam_info.course
    chapter := topic.chapter
    chapter_title := topic.chapter_title
    topic := "Ch " ++ toString topic.chapter ++ ": " ++ topic.chapter_title
    objective := topic.bullet
    reading_pages := reading
    practice_problems := problems
    key_terms := topic.key_terms
    study_question := study_question
    time_estimate_minutes := time_minutes
    confidence_score := topic.confidence_score
    notes := notes }

/-- One element of the work_items queue built by generate_multi_exam_plan. -/
structure WorkItem where
  topic : EnrichedTopic
  exam_info : ExamInfo
  exam_index : Nat
  minutes : Int
  priority : Priority
  priority_reason : String
deriving Repr, DecidableEq

/-- The weekend-skipping while loop of generate_multi_exam_plan: advance the
date while its weekday index is Saturday (5) or Sunday (6). -/
def skip_weekends (d : Nat) : Nat :=
  if d % 7 = 5 then d + 2 else if d % 7 = 6 then d + 1 else d

/-- The day-allocation loop of generate_multi_exam_plan (the step that packs
the ordered, scheduled work items into StudyDay records).  A new day is
opened when there is no current day or when adding the item would push the
current day past minutes_per_day; closing a day appends it and advances the
date by one, then weekends are skipped.  Blocks are created with question
generation off and the item minutes as time override, exactly as in the
source.  Running past the requested end date only prints a warning in the
source and has no effect on the produced plan, so the end date does not
appear here. -/
def allocate_days (qgen : String → List String → String → String)
    (minutes_per_day : Int) :
    List WorkItem → List StudyDay → Option StudyDay → Nat → List StudyDay
  | [], days, current_day, _ =>
    days ++ (match current_day with | some d => [d] | none => [])
  | item :: rest, days, current_day, current_date =>
    let block := create_study_block qgen item.topic item.exam_info false
      item.priority item.priority_reason (some item.minutes)
    match current_day with
    | some day =>
      if minutes_per_day < day.total_minutes + item.minutes then
        let d2 := skip_weekends (current_date + 1)
        let newday : StudyDay := ⟨d2, d2 % 7, 0, []⟩
        allocate_days qgen minutes_per_day rest (days ++ [day]) (some (newday.add_block block)) d2
      else
        allocate_days qgen minutes_per_day rest days (some (day.add_block block)) current_date
    | none =>
      let d2 := skip_weekends current_date
      let newday : StudyDay := ⟨d2, d2 % 7, 0, []⟩
      allocate_days qgen minutes_per_day rest days (some (newday.add_block block)) d2

/-- The balanced-strategy exam selection of generate_multi_exam_plan:
min(exam_minutes.items(), key=...)[0], the first exam id (in declared order)
whose cumulative scheduled minutes are minimal. -/
def pick_min_exam (exam_minutes : String → Int) : List String → Option String
  | [] => none
  | e :: rest =>
    some (rest.foldl (fun best e2 => if exam_minutes e2 < exam_minutes best then e2 else best) e)

/-- The inner scan of the balanced strategy: find the first work item of the
given exam and remove it from the queue (the source scans work_items and
calls work_items.remove on the first match). -/
def find_remove_exam (exam_id : String) :
    List WorkItem → Option (WorkItem × List WorkItem)
  | [] => none
  | item :: rest =>
    if item.exam_info.exam_id = exam_id then some (item, rest)
    else
      match find_remove_exam exam_id rest with
      | some (it, rest2) => some (it, item :: rest2)
      | none => none

/-- The while loop of the balanced strategy of generate_multi_exam_plan,
written with explicit fuel: repeatedly pick the exam with the least
cumulative minutes, move its first queued item to the schedule, and add the
item minutes to that exam.  When the selected exam has no queued item left
the source loop would spin forever; that case (and fuel exhaustion) is
modelled as none. -/
def balanced_loop (exam_ids : List String) :
    Nat → List WorkItem → (String → Int) → List WorkItem →
    Option (List WorkItem × (String → Int))
  | fuel, work_items, exam_minutes, scheduled =>
    match work_items with
    | [] => some (scheduled.reverse, exam_minutes)
    | _ :: _ =>
      match fuel with
      | 0 => none
      | fuel + 1 =>
        match pick_min_exam exam_minutes exam_ids with
        | none => none
        | some min_exam =>
          match find_remove_exam min_exam work_items with
          | none => none
          | some (item, rest) =>
            balanced_loop exam_ids fuel rest
              (fun e => if e = min_exam then exam_minutes e + item.minutes else exam_minutes e)
              (item :: scheduled)

/-- The sort key ordering of the balanced strategy: a stable sort of the
work items by (priority rank, chapter). -/
def work_item_le (a b : WorkItem) : Prop :=
  priority_rank a.priority < priority_rank b.priority ∨
    (priority_rank a.priority = priority_rank b.priority ∧ a.topic.chapter ≤ b.topic.chapter)

instance : DecidableRel work_item_le := fun a b => by
  unfold work_item_le; infer_instance

/-- Embeds the balanced branch of generate_multi_exam_plan: stable-sort the
work items by (priority rank, chapter), start every declared exam at zero
cumulative minutes, and run the selection loop (with fuel equal to the queue
length, enough for every terminating run).  Returns the scheduled order and
the final per-exam cumulative minutes, or none where the source diverges. -/
def balanced_schedule (exam_ids : List String) (work_items : List WorkItem) :
    Option (List WorkItem × (String → Int)) :=
  let sorted := List.insertionSort work_item_le work_items
  balanced_loop exam_ids sorted.length sorted (fun _ => 0) []

/-- Round half to even on rationals, the rounding of the Python round
builtin applied to the exact values arising in analyze_study_load. -/
def roundHalfEven (q : ℚ) : ℤ :=
  let f := ⌊q⌋
  let frac := q - (f : ℚ)
  if frac < 1/2 then f
  else if 1/2 < frac then f + 1
  else if Even f then f else f + 1

/-- The Python expression round(x, 1): round to one decimal place. -/
def round1 (q : ℚ) : ℚ := (roundHalfEven (10 * q) : ℚ) / 10

/-- Per-coverage summary consumed by analyze_study_load: each enriched
coverage file contributes its exam name, exam date and topic count. -/
structure CoverageInfo where
  exam_name : String
  exam_date : Option String
  num_topics : Nat
deriving Repr, DecidableEq

/-- The dictionary returned by analyze_study_load. -/
structure LoadAnalysis where
  total_topics : Nat
  total_time_needed_hours : ℚ
  time_available_hours : ℚ
  feasibility : String
  days_available : Int
  coverage_percentage : ℚ
  recommendation : String
  exams : List (String × Nat × Option String)
deriving Repr, DecidableEq

/-- Embeds analyze_study_load of app/tools/intelligent_planner.py.  Dates are
day ordinals, so (end_date - start_date).days is end_date - start_date.  The
float arithmetic of the source (hours, quotient, percentages) is modelled
exactly over the rationals; int(days_available * 5/7) truncates toward zero,
which is Int.tdiv of the exact products here.  The returned hour and
percentage fields are rounded to one decimal as in the source. -/
def analyze_study_load (coverages : List CoverageInfo)
    (start_date end_date : Int) (minutes_per_day : Int) : LoadAnalysis :=
  let total_topics : Nat := (coverages.map (fun c => c.num_topics)).sum
  let total_minutes_needed : Int := (total_topics : Int) * 45
  let total_hours_needed : ℚ := (total_minutes_needed : ℚ) / 60
  let days_available : Int := (end_date - start_date) + 1
  let weekdays_available : Int := Int.tdiv (days_available * 5) 7
  let total_minutes_available : Int := weekdays_available * minutes_per_day
  let total_hours_available : ℚ := (total_minutes_available : ℚ) / 60
  let coverage_percentage : ℚ :=
    if 0 < total_hours_needed then min 100 ((total_hours_available / total_hours_needed) * 100)
    else 100
  let r : ℚ :=
    if 0 < total_hours_needed then total_hours_available / total_hours_needed else 1
  let feas_rec : String × String :=
    if 3/2 ≤ r then ("comfortable", "comprehensive")
    else if 9/10 ≤ r then ("realistic", "balanced")
    else if 1/2 ≤ r then ("tight", "prioritized")
    else ("impossible", "cramming")
  { total_topics := total_topics
    total_time_needed_hours := round1 total_hours_needed
    time_available_hours := round1 total_hours_available
    feasibility := feas_rec.1
    days_available := weekdays_available
    coverage_percentage := round1 coverage_percentage
    recommendation := feas_rec.2
    exams := coverages.map (fun c => (c.exam_name, c.num_topics, c.exam_date)) }

/-- A chunk counts as a cache hit for get_or_compute_embeddings when the
lookup returns a valid embedding (the is_valid and not None test of the
source loop). -/
def cache_hit {α : Type} (hash : String → String) (st : CacheState α) (c : Chunk) : Bool :=
  match load_cached_embedding hash st c.chunk_id c.text with
  | (some _, true) => true
  | _ => false

/-- The vector that cache resolution is expected to return for a chunk when
the embedding provider computes f per text: the cached vector on a hit, the
freshly computed f of the chunk text on a miss. -/
def resolved_vector {α : Type} (hash : String → String) (st : CacheState α)
    (f : String → α) (c : Chunk) : α :=
  match load_cached_embedding hash st c.chunk_id c.text with
  | (some e, true) => e
  | _ => f c.text

/-- The per-result filter conditions asserted by the search claim: the score
clears a present minimum-score filter, and the chapter equals (or belongs
to) a present chapter filter. -/
def search_result_ok (f : Filters) (x : SearchResult) : Bool :=
  (match f.min_score with
   | none => true
   | some m => decide (m ≤ x.score)) &&
  (match f.chapter_number with
   | none => true
   | some (.one c) => decide (x.chapter_number = some c)
   | some (.many cs) =>
     match x.chapter_number with
     | some c => cs.contains c
     | none => false)

/-- The day-packing invariant asserted for every produced StudyDay: the day
total equals the sum of its block time estimates, and the total is within
the per-day budget unless the day holds exactly one block. -/
def packed_day_ok (minutes_per_day : Int) (day : StudyDay) : Bool :=
  decide (day.total_minutes = (day.blocks.map (fun b => b.time_estimate_minutes)).sum) &&
  (decide (day.total_minutes ≤ minutes_per_day) || decide (day.blocks.length = 1))

/-- The balanced-strategy fairness property asserted by the claim, stated on
the result of balanced_schedule: the run terminates with a schedule and the
two cumulative per-exam totals differ by at most the given bound. -/
def balanced_gap_within (exam_a exam_b : String) (items : List WorkItem)
    (bound : Int) : Prop :=
  match balanced_schedule [exam_a, exam_b] items with
  | some (_, m) => |m exam_a - m exam_b| ≤ bound
  | none => False

/-- Written from the spec sentence for the LoadAnalyzer (section 4.5),
amended only by the one-decimal rounding of the returned hour and percentage
fields: needed minutes are topics times 45, weekday count is the floor of
the inclusive day count times 5/7, available minutes are weekdays times the
per-day budget, the feasibility quotient is available hours over needed
hours (1 when nothing is needed), the feasibility and recommendation labels
follow the 1.5 / 0.9 / 0.5 thresholds, and the coverage percentage is
min(100, quotient * 100). -/
def spec_load_analysis (coverages : List CoverageInfo)
    (start_date end_date : Int) (minutes_per_day : Int) : LoadAnalysis :=
  let total_topics : Nat := (coverages.map (fun c => c.num_topics)).sum
  let needed_minutes : Int := (total_topics : Int) * 45
  let inclusive_days : Int := end_date - start_date + 1
  let weekdays : Int := (inclusive_days * 5) / 7
  let available_minutes : Int := weekdays * minutes_per_day
  let needed_hours : ℚ := (needed_minutes : ℚ) / 60
  let available_hours : ℚ := (available_minutes : ℚ) / 60
  let r : ℚ := if needed_hours = 0 then 1 else available_hours / needed_hours
  let labels : String × String :=
    if 3/2 ≤ r then ("comfortable", "comprehensive")
    else if 9/10 ≤ r then ("realistic", "balanced")
    else if 1/2 ≤ r then ("tight", "prioritized")
    else ("impossible", "cramming")
  { total_topics := total_topics
    total_time_needed_hours := round1 needed_hours
    time_available_hours := round1 available_hours
    feasibility := labels.1
    days_available := weekdays
    coverage_percentage := round1 (min 100 (r * 100))
    recommendation := labels.2
    exams := coverages.map (fun c => (c.exam_name, c.num_topics, c.exam_date)) }

/-- The cache directory produced by the write-back phase of
get_or_compute_embeddings: the scanned miss indices zipped with the computed
vectors vs, inserted into the scan outcomes, applied to the running state
st_run (st is the state the scan read from). -/
def resolved_cache_state {α : Type} (hash : String → String) (st : CacheState α)
    (chunks : List Chunk) (vs : List α) (st_run : CacheState α) : CacheState α :=
  (insert_computed hash chunks ((scan_cache hash st chunks 0).2.2.zip vs)
    (scan_cache hash st chunks 0).1 st_run).2

/-! Theorems.  Each claim of the specification is settled below; shared
helper lemmas precede the claim theorems that use them. -/

/-- C10: create_study_block returns the identical StudyBlock whatever
priority and priority_reason arguments are passed: the StudyBlock model
declares no priority fields (and the pydantic constructor discards the extra
keyword arguments), so a work item priority influences only topic ordering
and never appears in, or alters, any block of the emitted plan. -/
theorem create_study_block_priority_independent
    (qgen : String → List String → String → String) (topic : EnrichedTopic)
    (exam_info : ExamInfo) (generate_questions : Bool)
    (p1 p2 : Priority) (r1 r2 : String) (time_override : Option Int) :
    create_study_block qgen topic exam_info generate_questions p1 r1 time_override =
      create_study_block qgen topic exam_info generate_questions p2 r2 time_override := rfl

/-- C1 (counterexample): a cache entry whose digest file is absent is not a
miss: with the vector artifact present and the digest artifact missing,
load_cached_embedding returns the embedding with cache_valid true (the
backward-compatibility branch), contradicting the claim that a missing
digest file yields a miss. -/
theorem load_cached_embedding_missing_digest_is_hit :
    (⟨fun _ => FileState.good 7, fun _ => FileState.missing⟩ :
        CacheState Nat).metaFile "c1" = FileState.missing ∧
    load_cached_embedding (fun t => t)
      (⟨fun _ => FileState.good 7, fun _ => FileState.missing⟩ : CacheState Nat)
      "c1" "text" = (some 7, true) ∧
    ((some 7, true) : Option Nat × Bool) ≠ (none, false) :=
  ⟨rfl, rfl, by decide⟩

/-- C1 (amended): the cache lookup never errors: it returns either a miss or
a valid hit, and it returns a miss exactly when the vector artifact is
missing or unreadable, or the digest artifact is unreadable, or the stored
digest mismatches the digest of the given text; a present vector whose
digest file is absent is returned as a valid hit (backward compatibility)
rather than a miss. -/
theorem load_cached_embedding_miss_characterization {α : Type}
    (hash : String → String) (st : CacheState α) (chunk_id text : String) :
    (load_cached_embedding hash st chunk_id text = (none, false) ∨
      ∃ v, load_cached_embedding hash st chunk_id text = (some v, true)) ∧
    (load_cached_embedding hash st chunk_id text = (none, false) ↔
      (st.vecFile chunk_id = .missing ∨ st.vecFile chunk_id = .corrupt ∨
        ∃ v, st.vecFile chunk_id = .good v ∧
          (st.metaFile chunk_id = .corrupt ∨
            ∃ s, st.metaFile chunk_id = .good s ∧ s.trim ≠ hash text))) := by
  unfold load_cached_embedding
  rcases hv : st.vecFile chunk_id with _ | _ | v
  · simp [hv]
  · simp [hv]
  · rcases hm : st.metaFile chunk_id with _ | _ | s
    · simp [hv, hm]
    · simp [hv, hm]
    · by_cases h : s.trim = hash text
      · simp [hv, hm, h]
      · simp [hv, hm, h]

/-- C6 (counterexample): the claim formula for the coverage percentage omits
the one-decimal rounding the source applies.  With 3 topics, a two-day
window and 90 minutes per day the unrounded claim value is
min(100, (3/2 over 9/4) * 100) = 200/3, while analyze_study_load returns
round(200/3, 1) = 66.7. -/
theorem analyze_study_load_coverage_is_rounded :
    (analyze_study_load [⟨"E", none, 3⟩] 0 1 90).coverage_percentage = 667/10 ∧
    min 100 ((((3 : ℚ)/2) / ((9 : ℚ)/4)) * 100) = 200/3 ∧
    ((667 : ℚ)/10) ≠ 200/3 :=
  ⟨by norm_num [analyze_study_load, round1, roundHalfEven, Int.tdiv, min_def],
   by norm_num [min_def], by norm_num⟩

/-- Helper: the coverage-percentage branch of the source equals the
spec-side min formula over the guarded quotient when the needed hours are
nonnegative. -/
theorem cov_branch_eq (needed avail : ℚ) (h : 0 ≤ needed) :
    (if 0 < needed then min 100 (avail/needed*100) else 100) =
      min 100 ((if needed = 0 then 1 else avail/needed) * 100) := by
  rcases eq_or_lt_of_le h with h0 | h0
  · rw [if_neg (by rw [← h0]; exact lt_irrefl 0), if_pos h0.symm]
    norm_num
  · rw [if_pos h0, if_neg h0.ne']

/-- Helper: the two guard shapes of the feasibility quotient agree when the
needed hours are nonnegative. -/
theorem quot_branch_eq (needed avail : ℚ) (h : 0 ≤ needed) :
    (if 0 < needed then avail/needed else (1:ℚ)) =
      (if needed = 0 then 1 else avail/needed) := by
  rcases eq_or_lt_of_le h with h0 | h0
  · rw [if_neg (by rw [← h0]; exact lt_irrefl 0), if_pos h0.symm]
  · rw [if_pos h0, if_neg h0.ne']

/-- C6 (amended): for any window with start_date at most end_date, the load
analysis computes exactly the spec formulas with the returned hour and
percentage fields rounded to one decimal (the amendment): needed minutes are
topics times 45, weekdays are the floor of the inclusive day count times
5/7, available minutes are weekdays times minutes_per_day, the feasibility
quotient is available over needed hours (1 when needed is 0), the labels
follow the 1.5 / 0.9 / 0.5 thresholds, and the coverage percentage is
min(100, quotient times 100) rounded to one decimal.  In particular 10
topics over a 20-day window at 90 minutes per day yield 14 weekdays, 21
hours available against 7.5 needed, quotient 2.8, feasibility comfortable. -/
theorem analyze_study_load_spec (coverages : List CoverageInfo)
    (s e mpd : Int) (hse : s ≤ e) :
    analyze_study_load coverages s e mpd = spec_load_analysis coverages s e mpd ∧
    analyze_study_load [⟨"HLTH 204 - Midterm Examination 1", none, 10⟩] 0 19 90 =
      { total_topics := 10
        total_time_needed_hours := 15/2
        time_available_hours := 21
        feasibility := "comfortable"
        days_available := 14
        coverage_percentage := 100
        recommendation := "comprehensive"
        exams := [("HLTH 204 - Midterm Examination 1", 10, none)] } := by
  constructor
  · unfold analyze_study_load spec_load_analysis
    have hd5 : (0:Int) ≤ (e - s + 1) * 5 := by nlinarith
    simp only [Int.tdiv_eq_ediv hd5 (by norm_num : (0:Int) ≤ 7)]
    rw [cov_branch_eq, quot_branch_eq] <;> positivity
  · simp only [analyze_study_load, LoadAnalysis.mk.injEq]
    norm_num [round1, roundHalfEven, Int.tdiv, min_def]

/-- Witness for C6 (amended), at a concrete window. -/
theorem analyze_study_load_spec_witness :
    analyze_study_load [⟨"E", none, 2⟩] 3 9 60 = spec_load_analysis [⟨"E", none, 2⟩] 3 9 60 ∧
    analyze_study_load [⟨"HLTH 204 - Midterm Examination 1", none, 10⟩] 0 19 90 =
      { total_topics := 10
        total_time_needed_hours := 15/2
        time_available_hours := 21
        feasibility := "comfortable"
        days_available := 14
        coverage_percentage := 100
        recommendation := "comprehensive"
        exams := [("HLTH 204 - Midterm Examination 1", 10, none)] } :=
  analyze_study_load_spec [⟨"E", none, 2⟩] 3 9 60 (by decide)

/-- Helper: every point inside the running range, and every later page of
the sorted chain, lands inside some range emitted by the merge loop. -/
theorem consolidate_loop_covers (gap : Int) :
    ∀ (l : List Int) (start stop p : Int), start ≤ stop →
      List.Sorted (· ≤ ·) (stop :: l) → ((start ≤ p ∧ p ≤ stop) ∨ p ∈ l) →
      ∃ r ∈ consolidate_ranges_loop gap l start stop, r.1 ≤ p ∧ p ≤ r.2 := by
  intro l
  induction l with
  | nil =>
    intro start stop p hss _ hp
    refine ⟨(start, stop), by simp [consolidate_ranges_loop], ?_⟩
    rcases hp with ⟨h1, h2⟩ | h
    · exact ⟨h1, h2⟩
    · simp at h
  | cons x l2 ih =>
    intro start stop p hss hsort hp
    have hsx : stop ≤ x := (List.sorted_cons.mp hsort).1 x (List.mem_cons_self x l2)
    have hsort2 : List.Sorted (· ≤ ·) (x :: l2) := (List.sorted_cons.mp hsort).2
    simp only [consolidate_ranges_loop]
    by_cases hgap : x - stop ≤ gap
    · rw [if_pos hgap]
      apply ih start x p (le_trans hss hsx) hsort2
      rcases hp with ⟨h1, h2⟩ | h
      · exact Or.inl ⟨h1, le_trans h2 hsx⟩
      · rcases List.mem_cons.mp h with rfl | h2
        · exact Or.inl ⟨le_trans hss hsx, le_refl p⟩
        · exact Or.inr h2
    · rw [if_neg hgap]
      rcases hp with ⟨h1, h2⟩ | h
      · exact ⟨(start, stop), List.mem_cons_self _ _, h1, h2⟩
      · rcases List.mem_cons.mp h with rfl | h2
        · obtain ⟨r, hr, hrp⟩ := ih p p p le_rfl hsort2 (Or.inl ⟨le_rfl, le_rfl⟩)
          exact ⟨r, List.mem_cons_of_mem _ hr, hrp⟩
        · obtain ⟨r, hr, hrp⟩ := ih x x p le_rfl hsort2 (Or.inr h2)
          exact ⟨r, List.mem_cons_of_mem _ hr, hrp⟩

/-- Helper: every range emitted by the merge loop has endpoints drawn from
the running range and the remaining chain, in increasing order. -/
theorem consolidate_loop_endpoints (gap : Int) :
    ∀ (l : List Int) (start stop : Int), start ≤ stop →
      List.Sorted (· ≤ ·) (stop :: l) →
      ∀ r ∈ consolidate_ranges_loop gap l start stop,
        r.1 ∈ start :: stop :: l ∧ r.2 ∈ start :: stop :: l ∧ r.1 ≤ r.2 := by
  intro l
  induction l with
  | nil =>
    intro start stop hss _ r hr
    simp only [consolidate_ranges_loop, List.mem_singleton] at hr
    subst hr
    exact ⟨by simp, by simp, hss⟩
  | cons x l2 ih =>
    intro start stop hss hsort r hr
    have hsx : stop ≤ x := (List.sorted_cons.mp hsort).1 x (List.mem_cons_self x l2)
    have hsort2 : List.Sorted (· ≤ ·) (x :: l2) := (List.sorted_cons.mp hsort).2
    simp only [consolidate_ranges_loop] at hr
    by_cases hgap : x - stop ≤ gap
    · rw [if_pos hgap] at hr
      obtain ⟨h1, h2, h3⟩ := ih start x (le_trans hss hsx) hsort2 r hr
      refine ⟨?_, ?_, h3⟩
      · rcases List.mem_cons.mp h1 with h | h
        · simp [h]
        · simp [List.mem_cons.mp h, or_assoc]
      · rcases List.mem_cons.mp h2 with h | h
        · simp [h]
        · simp [List.mem_cons.mp h, or_assoc]
    · rw [if_neg hgap] at hr
      rcases List.mem_cons.mp hr with rfl | hr2
      · exact ⟨by simp, by simp, hss⟩
      · obtain ⟨h1, h2, h3⟩ := ih x x le_rfl hsort2 r hr2
        refine ⟨?_, ?_, h3⟩
        · rcases List.mem_cons.mp h1 with h | h
          · simp [h]
          · simp [List.mem_cons.mp h]
        · rcases List.mem_cons.mp h2 with h | h
          · simp [h]
          · simp [List.mem_cons.mp h]

/-- C8: consolidate_page_ranges dedupes and sorts pages and merges them into
closed ranges whenever consecutive sorted pages are within gap_tolerance: the
two spec examples and the empty input hold exactly, every input page is
covered by some returned range, and every returned range has endpoints that
are input pages in increasing order. -/
theorem consolidate_page_ranges_spec (pages : List Int) (gap p : Int)
    (hp : p ∈ pages) :
    (consolidate_page_ranges [1,2,3,7,8,15] 3 = [(1,3),(7,8),(15,15)] ∧
     consolidate_page_ranges [5,5,6] 3 = [(5,6)] ∧
     consolidate_page_ranges [] gap = []) ∧
    (consolidate_page_ranges pages gap).any
      (fun r => decide (r.1 ≤ p) && decide (p ≤ r.2)) = true ∧
    (consolidate_page_ranges pages gap).all
      (fun r => decide (r.1 ∈ pages) && decide (r.2 ∈ pages) && decide (r.1 ≤ r.2)) = true := by
  have hsorted : List.Sorted (· ≤ ·) (List.insertionSort (· ≤ ·) pages.dedup) :=
    List.sorted_insertionSort (· ≤ ·) pages.dedup
  have hmem : ∀ a : Int, a ∈ List.insertionSort (· ≤ ·) pages.dedup ↔ a ∈ pages := by
    intro a
    rw [(List.perm_insertionSort (· ≤ ·) pages.dedup).mem_iff, List.mem_dedup]
  refine ⟨⟨by decide, by decide, rfl⟩, ?_, ?_⟩
  · cases pages with
    | nil => simp at hp
    | cons a t =>
      unfold consolidate_page_ranges
      cases hs : List.insertionSort (· ≤ ·) (a :: t).dedup with
      | nil =>
        have : a ∈ List.insertionSort (· ≤ ·) (a :: t).dedup := (hmem a).mpr (by simp)
        rw [hs] at this
        simp at this
      | cons p0 rest =>
        have hps : p ∈ p0 :: rest := by rw [← hs]; exact (hmem p).mpr hp
        have hsort2 : List.Sorted (· ≤ ·) (p0 :: rest) := by rw [← hs]; exact hsorted
        obtain ⟨r, hr, hr1, hr2⟩ :=
          consolidate_loop_covers gap rest p0 p0 p le_rfl hsort2
            (by rcases List.mem_cons.mp hps with rfl | h
                · exact Or.inl ⟨le_rfl, le_rfl⟩
                · exact Or.inr h)
        exact List.any_eq_true.mpr ⟨r, hr, by simp [hr1, hr2]⟩
  · cases pages with
    | nil => simp at hp
    | cons a t =>
      unfold consolidate_page_ranges
      cases hs : List.insertionSort (· ≤ ·) (a :: t).dedup with
      | nil => simp
      | cons p0 rest =>
        have hsort2 : List.Sorted (· ≤ ·) (p0 :: rest) := by rw [← hs]; exact hsorted
        refine List.all_eq_true.mpr ?_
        intro r hr
        obtain ⟨h1, h2, h3⟩ :=
          consolidate_loop_endpoints gap rest p0 p0 le_rfl hsort2 r hr
        have hmem2 : ∀ b : Int, b ∈ p0 :: p0 :: rest → b ∈ a :: t := by
          intro b hb
          rcases List.mem_cons.mp hb with rfl | hb2
          · exact (hmem b).mp (by rw [hs]; exact List.mem_cons_self _ _)
          · exact (hmem b).mp (by rw [hs]; exact hb2)
        simp [hmem2 r.1 h1, hmem2 r.2 h2, h3]

/-- Witness for C8 at a concrete page list. -/
theorem consolidate_page_ranges_spec_witness :
    (consolidate_page_ranges [1,2,3,7,8,15] 3 = [(1,3),(7,8),(15,15)] ∧
     consolidate_page_ranges [5,5,6] 3 = [(5,6)] ∧
     consolidate_page_ranges [] 3 = []) ∧
    (consolidate_page_ranges [4,9] 3).any
      (fun r => decide (r.1 ≤ 9) && decide ((9:Int) ≤ r.2)) = true ∧
    (consolidate_page_ranges [4,9] 3).all
      (fun r => decide (r.1 ∈ [4,9]) && decide (r.2 ∈ ([4,9] : List Int)) && decide (r.1 ≤ r.2)) = true :=
  consolidate_page_ranges_spec [4,9] 3 9 (by decide)

/-- Helper: the candidate loop of search_index never returns more than top_k
results, and every returned result beyond the accumulator is an accepted row
that passed the filters when filters were present. -/
theorem search_loop_invariant (mapping : Int → Option ChunkMeta) (top_k : Nat)
    (filters : Option Filters) :
    ∀ (cands : List (Int × Int)) (acc : List SearchResult),
      acc.length < top_k →
      (search_loop mapping top_k filters cands acc).length ≤ top_k ∧
      ∀ x ∈ search_loop mapping top_k filters cands acc,
        x ∈ acc ∨ ∃ score meta, x = mk_search_result score meta ∧
          (∀ f, filters = some f → passes_filters f score meta = true) := by
  intro cands
  induction cands with
  | nil =>
    intro acc hlen
    constructor
    · simpa [search_loop] using le_of_lt hlen
    · intro x hx
      simp only [search_loop, List.mem_reverse] at hx
      exact Or.inl hx
  | cons c rest ih =>
    obtain ⟨score, idx⟩ := c
    intro acc hlen
    simp only [search_loop]
    by_cases hidx : idx = -1
    · rw [if_pos hidx]
      exact ih acc hlen
    rw [if_neg hidx]
    cases hmap : mapping idx with
    | none =>
      dsimp only
      exact ih acc hlen
    | some meta =>
      dsimp only
      obtain ⟨b, hb⟩ : ∃ b, (match filters with
        | none => true
        | some f => passes_filters f score meta) = b := ⟨_, rfl⟩
      rw [hb]
      cases b with
      | false =>
        rw [if_neg (by simp)]
        exact ih acc hlen
      | true =>
        rw [if_pos rfl]
        have hnew : ∀ g, filters = some g → passes_filters g score meta = true := by
          intro g hg
          rw [hg] at hb
          exact hb
        by_cases hbreak : top_k ≤ (mk_search_result score meta :: acc).length
        · rw [if_pos hbreak]
          constructor
          · simp only [List.length_reverse, List.length_cons]
            simpa using hlen
          · intro x hx
            simp only [List.mem_reverse, List.mem_cons] at hx
            rcases hx with rfl | hx
            · exact Or.inr ⟨score, meta, rfl, hnew⟩
            · exact Or.inl hx
        · rw [if_neg hbreak]
          have hlen2 : (mk_search_result score meta :: acc).length < top_k := by
            omega
          obtain ⟨ihl, ihm⟩ := ih (mk_search_result score meta :: acc) hlen2
          refine ⟨ihl, ?_⟩
          intro x hx
          rcases ihm x hx with hx2 | hx2
          · rcases List.mem_cons.mp hx2 with rfl | hx3
            · exact Or.inr ⟨score, meta, rfl, hnew⟩
            · exact Or.inl hx3
          · exact Or.inr hx2

/-- C2: with a positive top_k, index search returns at most top_k results
for any filter set (fewer survivors are simply returned, never an error),
and with filters present every returned result clears a present minimum
score filter and matches a present chapter filter (equality for a single
chapter, membership for a chapter list). -/
theorem search_index_spec (index_search : Nat → List (Int × Int))
    (mapping : Int → Option ChunkMeta) (top_k : Nat) (f : Filters)
    (fo : Option Filters) (htop : 1 ≤ top_k) :
    (search_index index_search mapping top_k fo).length ≤ top_k ∧
    (search_index index_search mapping top_k (some f)).all (search_result_ok f) = true := by
  constructor
  · exact (search_loop_invariant mapping top_k fo _ [] (by simpa using htop)).1
  · refine List.all_eq_true.mpr ?_
    intro x hx
    rcases (search_loop_invariant mapping top_k (some f) _ [] (by simpa using htop)).2 x hx with
      h | ⟨score, meta, rfl, hpass⟩
    · simp at h
    · have hp := hpass f rfl
      unfold passes_filters at hp
      simp only [Bool.and_eq_true] at hp
      obtain ⟨⟨hch, _⟩, hms⟩ := hp
      unfold search_result_ok mk_search_result
      simp only [Bool.and_eq_true]
      constructor
      · cases hmsf : f.min_score with
        | none => rfl
        | some m =>
          rw [hmsf] at hms
          simp only [Bool.not_eq_eq_eq_not, Bool.not_true, decide_eq_false_iff_not,
            Int.not_lt] at hms
          simpa using hms
      · cases hchf : f.chapter_number with
        | none => rfl
        | some cf =>
          rw [hchf] at hch
          cases cf with
          | one c => simpa using hch
          | many cs =>
            cases hmc : meta.chapter_number with
            | none => rw [hmc] at hch; simp at hch
            | some c => rw [hmc] at hch; simpa using hch

/-- Witness for C2 at a concrete index, mapping and filter set. -/
theorem search_index_spec_witness :
    (search_index (fun _ => [((5:Int), (0:Int))])
      (fun i => if i = 0 then some ⟨"c0", "f", "fn", 1, 2, some 2, none, 5⟩ else none)
      3 (some ⟨some (.one 2), none, some 4⟩)).length ≤ 3 ∧
    (search_index (fun _ => [((5:Int), (0:Int))])
      (fun i => if i = 0 then some ⟨"c0", "f", "fn", 1, 2, some 2, none, 5⟩ else none)
      3 (some ⟨some (.one 2), none, some 4⟩)).all
      (search_result_ok ⟨some (.one 2), none, some 4⟩) = true :=
  search_index_spec _ _ 3 _ _ (by decide)

/-- C9: when retrieval (including the unfiltered fallback search) yields
zero results, topic enrichment does not raise: it returns an EnrichedTopic
with confidence 0, zero chunks retrieved, empty evidence lists and a
non-empty explanatory note. -/
theorem enrich_topic_no_evidence {Q : Type} (embed_query : String → Q)
    (index_search : Q → Nat → List (Int × Int))
    (extract_problems : List Chunk → Nat → List PracticeProblem)
    (extract_terms : List Chunk → Nat → List String)
    (mapping : Int → Option ChunkMeta) (all_chunks : List Chunk)
    (topic_bullet : String) (chapter_number : Int) (chapter_title : String)
    (top_k : Nat) (min_score : Int) (use_chapter_filter : Bool)
    (fallback_threshold : Nat)
    (h1 : search_index (index_search (embed_query topic_bullet)) mapping top_k
      (some (enrich_filters use_chapter_filter chapter_number min_score)) = [])
    (h2 : search_index (index_search (embed_query topic_bullet)) mapping top_k
      (some { enrich_filters use_chapter_filter chapter_number min_score with
              chapter_number := none }) = []) :
    enrich_topic embed_query index_search extract_problems extract_terms mapping
      all_chunks topic_bullet chapter_number chapter_title top_k min_score
      use_chapter_filter fallback_threshold =
      { chapter := chapter_number
        chapter_title := chapter_title
        bullet := topic_bullet
        reading_pages := ⟨"", "", []⟩
        practice_problems := []
        key_terms := []
        confidence_score := 0
        chunks_retrieved := 0
        notes := "No relevant chunks found above threshold"
        top_chunks := [] } ∧
    "No relevant chunks found above threshold" ≠ "" := by
  constructor
  · simp only [enrich_topic, h1, h2, ite_self]
  · decide

/-- Witness for C9 on an empty index. -/
theorem enrich_topic_no_evidence_witness :
    enrich_topic (fun _ => ()) (fun _ _ => []) (fun _ _ => []) (fun _ _ => [])
      (fun _ => none) [] "objective" 2 "Title" 10 1 true 3 =
      { chapter := 2
        chapter_title := "Title"
        bullet := "objective"
        reading_pages := ⟨"", "", []⟩
        practice_problems := []
        key_terms := []
        confidence_score := 0
        chunks_retrieved := 0
        notes := "No relevant chunks found above threshold"
        top_chunks := [] } ∧
    "No relevant chunks found above threshold" ≠ "" :=
  enrich_topic_no_evidence (fun _ => ()) (fun _ _ => []) (fun _ _ => [])
    (fun _ _ => []) (fun _ => none) [] "objective" 2 "Title" 10 1 true 3 rfl rfl

/-- Helper: a nonzero time override becomes the block time estimate. -/
theorem create_study_block_time_override
    (qgen : String → List String → String → String) (topic : EnrichedTopic)
    (exam_info : ExamInfo) (gq : Bool) (p : Priority) (r : String)
    (t : Int) (ht : t ≠ 0) :
    (create_study_block qgen topic exam_info gq p r (some t)).time_estimate_minutes = t := by
  simp [create_study_block, ht]

/-- Helper: the day-allocation loop preserves the packing invariant on the
closed days and the current day. -/
theorem allocate_days_all_ok (qgen : String → List String → String → String)
    (mpd : Int) :
    ∀ (items : List WorkItem) (days : List StudyDay) (cur : Option StudyDay)
      (date : Nat),
      (∀ it ∈ items, 0 < it.minutes) →
      days.all (packed_day_ok mpd) = true →
      (∀ d, cur = some d → packed_day_ok mpd d = true) →
      (allocate_days qgen mpd items days cur date).all (packed_day_ok mpd) = true := by
  intro items
  induction items with
  | nil =>
    intro days cur date _ hdays hcur
    cases cur with
    | none => simpa [allocate_days] using hdays
    | some d =>
      have hd := hcur d rfl
      simp [allocate_days, List.all_append, hdays, hd]
  | cons item rest ih =>
    intro days cur date hpos hdays hcur
    have hm : 0 < item.minutes := hpos item (List.mem_cons_self _ _)
    have hrest : ∀ it ∈ rest, 0 < it.minutes :=
      fun it h => hpos it (List.mem_cons_of_mem _ h)
    have hbt : ∀ d2 : Nat,
        packed_day_ok mpd ((⟨d2, d2 % 7, 0, []⟩ : StudyDay).add_block
          (create_study_block qgen item.topic item.exam_info false item.priority
            item.priority_reason (some item.minutes))) = true := by
      intro d2
      simp [packed_day_ok, StudyDay.add_block,
        create_study_block_time_override qgen item.topic item.exam_info false
          item.priority item.priority_reason item.minutes hm.ne']
    simp only [allocate_days]
    cases cur with
    | none =>
      dsimp only
      apply ih days _ _ hrest hdays
      intro d hd
      injection hd with hd
      rw [← hd]
      exact hbt _
    | some day =>
      dsimp only
      have hday := hcur day rfl
      by_cases hover : mpd < day.total_minutes + item.minutes
      · rw [if_pos hover]
        apply ih (days ++ [day]) _ _ hrest
        · simp [List.all_append, hdays, hday]
        · intro d hd
          injection hd with hd
          rw [← hd]
          exact hbt _
      · rw [if_neg hover]
        apply ih days _ _ hrest hdays
        intro d hd
        injection hd with hd
        rw [← hd]
        simp only [packed_day_ok, StudyDay.add_block, List.map_append, List.sum_append,
          Bool.and_eq_true, Bool.or_eq_true, decide_eq_true_eq] at hday ⊢
        obtain ⟨hsum, hrestday⟩ := hday
        constructor
        · simp [create_study_block_time_override qgen item.topic item.exam_info false
            item.priority item.priority_reason item.minutes hm.ne', hsum]
        · left
          rw [create_study_block_time_override qgen item.topic item.exam_info false
            item.priority item.priority_reason item.minutes hm.ne']
          omega

/-- C3: in every plan produced by the day-packing loop (run, as in the
source, from an empty day list and no current day), every StudyDay total
equals the sum of its block time estimates, and no day exceeds
minutes_per_day unless it holds exactly one block (an oversized topic sits
alone on its own overflow day).  Item time estimates are positive, as both
priority variants of the source guarantee. -/
theorem generate_plan_day_packing (qgen : String → List String → String → String)
    (mpd : Int) (items : List WorkItem) (start : Nat)
    (hpos : ∀ it ∈ items, 0 < it.minutes) :
    (allocate_days qgen mpd items [] none start).all (packed_day_ok mpd) = true :=
  allocate_days_all_ok qgen mpd items [] none start hpos rfl
    (fun _ hd => by simp at hd)

/-- Witness for C3 at a concrete work queue: two 50-minute topics and one
oversized 120-minute topic against a 90-minute day budget. -/
theorem generate_plan_day_packing_witness :
    (allocate_days (fun _ _ _ => "") 90
      [⟨⟨1, "T", "b1", ⟨"", "", []⟩, [], [], 0, 0, "", []⟩, ⟨"e1", "E", none, "C", ""⟩, 0, 50, .medium, ""⟩,
       ⟨⟨1, "T", "b2", ⟨"", "", []⟩, [], [], 0, 0, "", []⟩, ⟨"e1", "E", none, "C", ""⟩, 0, 50, .medium, ""⟩,
       ⟨⟨2, "U", "b3", ⟨"", "", []⟩, [], [], 0, 0, "", []⟩, ⟨"e1", "E", none, "C", ""⟩, 0, 120, .medium, ""⟩]
      [] none 0).all (packed_day_ok 90) = true :=
  generate_plan_day_packing (fun _ _ _ => "") 90 _ 0 (by decide)

/-- Helper: adding successive offsets to a list of indices composes. -/
theorem map_add_shift (l : List Nat) (i : Nat) :
    l.map (fun n => n + (i + 1)) = (l.map (fun n => n + 1)).map (fun n => n + i) := by
  rw [List.map_map]
  apply List.map_congr_left
  intro a _
  simp only [Function.comp_apply]
  omega

/-- Helper: the cache scan at a starting index i returns the same outcomes
and texts as the scan at 0, with every returned index shifted by i. -/
theorem scan_cache_shift {α : Type} (hash : String → String) (st : CacheState α) :
    ∀ (chunks : List Chunk) (i : Nat),
      scan_cache hash st chunks i =
        ((scan_cache hash st chunks 0).1, (scan_cache hash st chunks 0).2.1,
          (scan_cache hash st chunks 0).2.2.map (fun n => n + i)) := by
  intro chunks
  induction chunks with
  | nil =>
    intro i
    simp [scan_cache]
  | cons c rest ih =>
    intro i
    simp only [scan_cache]
    rw [ih (i + 1), ih (0 + 1)]
    rcases hl : load_cached_embedding hash st c.chunk_id c.text with ⟨o, b⟩
    cases o with
    | some e =>
      cases b with
      | true =>
        dsimp only
        rw [map_add_shift]
      | false =>
        dsimp only
        rw [map_add_shift]
        simp
    | none =>
      cases b <;>
        · dsimp only
          rw [map_add_shift]
          simp

/-- Helper: the cache scan emits exactly the miss texts in original order,
one outcome per chunk, one index per text, and its hit count plus miss count
is the chunk count. -/
theorem scan_cache_components {α : Type} (hash : String → String) (st : CacheState α) :
    ∀ (chunks : List Chunk) (i : Nat),
      (scan_cache hash st chunks i).2.1 =
        (chunks.filter (fun c => !cache_hit hash st c)).map (fun c => c.text) ∧
      (scan_cache hash st chunks i).1.length = chunks.length ∧
      (scan_cache hash st chunks i).2.1.length = (scan_cache hash st chunks i).2.2.length ∧
      (scan_cache hash st chunks i).1.countP (fun o => o.isSome) +
        (scan_cache hash st chunks i).2.1.length = chunks.length := by
  intro chunks
  induction chunks with
  | nil =>
    intro i
    simp [scan_cache]
  | cons c rest ih =>
    intro i
    obtain ⟨ih1, ih2, ih3, ih4⟩ := ih (i + 1)
    simp only [scan_cache]
    have hhit : cache_hit hash st c =
        match load_cached_embedding hash st c.chunk_id c.text with
        | (some _, true) => true
        | _ => false := rfl
    rcases hl : load_cached_embedding hash st c.chunk_id c.text with ⟨o, b⟩
    rw [hl] at hhit
    cases o with
    | some e =>
      cases b with
      | true =>
        dsimp only
        refine ⟨?_, ?_, ih3, ?_⟩
        · rw [List.filter_cons_of_neg (by simp [hhit])]
          exact ih1
        · simp [ih2]
        · simp only [List.countP_cons, List.length_cons, Option.isSome_some]
          simp
          omega
      | false =>
        dsimp only
        refine ⟨?_, ?_, ?_, ?_⟩
        · rw [List.filter_cons_of_pos (by simp [hhit])]
          simp [ih1]
        · simp [ih2]
        · simp [ih3]
        · simp only [List.countP_cons, List.length_cons, Option.isSome_none]
          simp
          omega
    | none =>
      cases b <;>
        · dsimp only
          refine ⟨?_, ?_, ?_, ?_⟩
          · rw [List.filter_cons_of_pos (by simp [hhit])]
            simp [ih1]
          · simp [ih2]
          · simp [ih3]
          · simp only [List.countP_cons, List.length_cons, Option.isSome_none]
            simp
            omega

/-- Helper: inserting shifted pairs into a consed outcome list leaves the
head alone and acts on the tail with the unshifted pairs, with the same
cache writes (position idx + 1 of c :: rest is position idx of rest). -/
theorem insert_computed_shift {α : Type} (hash : String → String)
    (c : Chunk) (rest : List Chunk) :
    ∀ (pairs : List (Nat × α)) (x : Option α) (l : List (Option α)) (st : CacheState α),
      insert_computed hash (c :: rest) (pairs.map (Prod.map (fun n => n + 1) id)) (x :: l) st =
        (x :: (insert_computed hash rest pairs l st).1,
          (insert_computed hash rest pairs l st).2) := by
  intro pairs
  induction pairs with
  | nil =>
    intro x l st
    rfl
  | cons p rest2 ih =>
    obtain ⟨i, v⟩ := p
    intro x l st
    simp only [List.map_cons, Prod.map_apply, id_eq, insert_computed, List.getElem?_cons_succ]
    cases h : rest[i]? with
    | some ch =>
      dsimp only
      rw [show (x :: l).set (i + 1) (some v) = x :: l.set i (some v) from rfl]
      exact ih x (l.set i (some v)) _
    | none =>
      dsimp only
      exact ih x l st

/-- Helper: merging the computed vectors (the provider mapping f over the
miss texts) back into the scan outcomes, at the scanned miss indices, yields
exactly one vector per chunk in original order: the cached vector for hits
and f of the chunk text for misses; this holds whatever state the writes
are applied to. -/
theorem insert_scan_merge {α : Type} (hash : String → String) (st : CacheState α)
    (f : String → α) :
    ∀ (chunks : List Chunk) (st_run : CacheState α),
      (insert_computed hash chunks
        ((scan_cache hash st chunks 0).2.2.zip
          ((scan_cache hash st chunks 0).2.1.map f))
        (scan_cache hash st chunks 0).1 st_run).1 =
      chunks.map (fun c => some (resolved_vector hash st f c)) := by
  intro chunks
  induction chunks with
  | nil =>
    intro st_run
    simp [scan_cache, insert_computed]
  | cons c rest ih =>
    intro st_run
    simp only [scan_cache, List.map_cons]
    rw [scan_cache_shift hash st rest (0 + 1)]
    simp only [Nat.zero_add]
    rcases hl : load_cached_embedding hash st c.chunk_id c.text with ⟨o, b⟩
    cases o with
    | some e =>
      cases b with
      | true =>
        have hres : resolved_vector hash st f c = e := by
          unfold resolved_vector
          rw [hl]
        try dsimp only
        rw [List.zip_map_left, insert_computed_shift]
        rw [ih st_run, hres]
      | false =>
        have hres : resolved_vector hash st f c = f c.text := by
          unfold resolved_vector
          rw [hl]
        try dsimp only
        simp only [List.map_cons]
        rw [show ((0 : Nat) :: (scan_cache hash st rest 0).2.2.map (fun n => n + 1)).zip
              (f c.text :: (scan_cache hash st rest 0).2.1.map f) =
            ((0 : Nat), f c.text) ::
              ((scan_cache hash st rest 0).2.2.map (fun n => n + 1)).zip
                ((scan_cache hash st rest 0).2.1.map f) from rfl]
        simp only [insert_computed, List.getElem?_cons_zero]
        try dsimp only
        rw [show ((none : Option α) :: (scan_cache hash st rest 0).1).set 0
              (some (f c.text)) = some (f c.text) :: (scan_cache hash st rest 0).1 from rfl]
        rw [List.zip_map_left, insert_computed_shift]
        rw [ih _, hres]
    | none =>
      cases b <;>
      · have hres : resolved_vector hash st f c = f c.text := by
          unfold resolved_vector
          rw [hl]
        try dsimp only
        simp only [List.map_cons]
        rw [show ((0 : Nat) :: (scan_cache hash st rest 0).2.2.map (fun n => n + 1)).zip
              (f c.text :: (scan_cache hash st rest 0).2.1.map f) =
            ((0 : Nat), f c.text) ::
              ((scan_cache hash st rest 0).2.2.map (fun n => n + 1)).zip
                ((scan_cache hash st rest 0).2.1.map f) from rfl]
        simp only [insert_computed, List.getElem?_cons_zero]
        try dsimp only
        rw [show ((none : Option α) :: (scan_cache hash st rest 0).1).set 0
              (some (f c.text)) = some (f c.text) :: (scan_cache hash st rest 0).1 from rfl]
        rw [List.zip_map_left, insert_computed_shift]
        rw [ih _, hres]

/-- C5: cache resolution partitions the chunks into hits and misses in
original order, sends exactly the miss texts to the embedding provider,
merges the computed vectors back into their original positions, so the
vector at every position is the resolved vector of the chunk at that
position (cached on a hit, freshly computed on a miss), and returns stats
with cached + computed = total = number of input chunks.  The provider is
assumed to embed each text of a batch (it computes f per text). -/
theorem get_or_compute_embeddings_resolution {α : Type} (hash : String → String)
    (embed_function : List String → List α) (f : String → α)
    (chunks : List Chunk) (st : CacheState α)
    (hembed : embed_function = fun ts => ts.map f) :
    (get_or_compute_embeddings hash embed_function chunks st).1 =
      chunks.map (fun c => some (resolved_vector hash st f c)) ∧
    (scan_cache hash st chunks 0).2.1 =
      (chunks.filter (fun c => !cache_hit hash st c)).map (fun c => c.text) ∧
    (get_or_compute_embeddings hash embed_function chunks st).2.1.cached +
      (get_or_compute_embeddings hash embed_function chunks st).2.1.computed =
      (get_or_compute_embeddings hash embed_function chunks st).2.1.total ∧
    (get_or_compute_embeddings hash embed_function chunks st).2.1.total = chunks.length := by
  obtain ⟨hc1, hc2, hc3, hc4⟩ := scan_cache_components hash st chunks 0
  subst hembed
  refine ⟨?_, hc1, ?_, ?_⟩
  · simp only [get_or_compute_embeddings]
    by_cases hemp : (scan_cache hash st chunks 0).2.1.isEmpty
    · rw [if_pos hemp]
      have hti : (scan_cache hash st chunks 0).2.1 = [] := List.isEmpty_iff.mp hemp
      have hii : (scan_cache hash st chunks 0).2.2 = [] := by
        have h0 := hc3
        rw [hti] at h0
        exact (List.length_eq_zero.mp h0.symm)
      have hm := insert_scan_merge hash st f chunks st
      rw [hti, hii] at hm
      simpa [insert_computed] using hm
    · rw [if_neg hemp]
      exact insert_scan_merge hash st f chunks st
  · simp only [get_or_compute_embeddings]
    by_cases hemp : (scan_cache hash st chunks 0).2.1.isEmpty
    · rw [if_pos hemp]
      have hti : (scan_cache hash st chunks 0).2.1 = [] := List.isEmpty_iff.mp hemp
      dsimp only
      rw [hti] at hc4
      simpa using hc4
    · rw [if_neg hemp]
      exact hc4
  · simp only [get_or_compute_embeddings]
    by_cases hemp : (scan_cache hash st chunks 0).2.1.isEmpty
    · rw [if_pos hemp]
    · rw [if_neg hemp]

/-- Witness for C5 at a concrete chunk list: one cached chunk and one miss
against a digest-stamped cache. -/
theorem get_or_compute_embeddings_resolution_witness :
    (get_or_compute_embeddings (fun t => t) (fun ts => ts.map (fun s => s.length))
      [⟨"a", "fa", "na", 1, 2, none, none, 3, "ta"⟩,
       ⟨"b", "fb", "nb", 1, 2, none, none, 3, "textb"⟩]
      (⟨fun k => if k = "a" then .good 99 else .missing,
        fun k => if k = "a" then .good "ta" else .missing⟩ : CacheState Nat)).1 =
      ([⟨"a", "fa", "na", 1, 2, none, none, 3, "ta"⟩,
        ⟨"b", "fb", "nb", 1, 2, none, none, 3, "textb"⟩] : List Chunk).map
        (fun c => some (resolved_vector (fun t => t)
          (⟨fun k => if k = "a" then .good 99 else .missing,
            fun k => if k = "a" then .good "ta" else .missing⟩ : CacheState Nat)
          (fun s => s.length) c)) ∧
    (scan_cache (fun t => t)
      (⟨fun k => if k = "a" then .good 99 else .missing,
        fun k => if k = "a" then .good "ta" else .missing⟩ : CacheState Nat)
      [⟨"a", "fa", "na", 1, 2, none, none, 3, "ta"⟩,
       ⟨"b", "fb", "nb", 1, 2, none, none, 3, "textb"⟩] 0).2.1 =
      (([⟨"a", "fa", "na", 1, 2, none, none, 3, "ta"⟩,
         ⟨"b", "fb", "nb", 1, 2, none, none, 3, "textb"⟩] : List Chunk).filter
        (fun c => !cache_hit (fun t => t)
          (⟨fun k => if k = "a" then .good 99 else .missing,
            fun k => if k = "a" then .good "ta" else .missing⟩ : CacheState Nat) c)).map
        (fun c => c.text) ∧
    (get_or_compute_embeddings (fun t => t) (fun ts => ts.map (fun s => s.length))
      [⟨"a", "fa", "na", 1, 2, none, none, 3, "ta"⟩,
       ⟨"b", "fb", "nb", 1, 2, none, none, 3, "textb"⟩]
      (⟨fun k => if k = "a" then .good 99 else .missing,
        fun k => if k = "a" then .good "ta" else .missing⟩ : CacheState Nat)).2.1.cached +
      (get_or_compute_embeddings (fun t => t) (fun ts => ts.map (fun s => s.length))
        [⟨"a", "fa", "na", 1, 2, none, none, 3, "ta"⟩,
         ⟨"b", "fb", "nb", 1, 2, none, none, 3, "textb"⟩]
        (⟨fun k => if k = "a" then .good 99 else .missing,
          fun k => if k = "a" then .good "ta" else .missing⟩ : CacheState Nat)).2.1.computed =
      (get_or_compute_embeddings (fun t => t) (fun ts => ts.map (fun s => s.length))
        [⟨"a", "fa", "na", 1, 2, none, none, 3, "ta"⟩,
         ⟨"b", "fb", "nb", 1, 2, none, none, 3, "textb"⟩]
        (⟨fun k => if k = "a" then .good 99 else .missing,
          fun k => if k = "a" then .good "ta" else .missing⟩ : CacheState Nat)).2.1.total ∧
    (get_or_compute_embeddings (fun t => t) (fun ts => ts.map (fun s => s.length))
      [⟨"a", "fa", "na", 1, 2, none, none, 3, "ta"⟩,
       ⟨"b", "fb", "nb", 1, 2, none, none, 3, "textb"⟩]
      (⟨fun k => if k = "a" then .good 99 else .missing,
        fun k => if k = "a" then .good "ta" else .missing⟩ : CacheState Nat)).2.1.total = 2 :=
  get_or_compute_embeddings_resolution (fun t => t) _ (fun s => s.length) _ _ rfl

/-- Helper: a save leaves every other key untouched. -/
theorem save_preserves {α : Type} (hash : String → String) (s : CacheState α)
    (cid t : String) (v : α) (k : String) (hk : k ≠ cid) :
    (save_embedding_to_cache hash s cid t v).vecFile k = s.vecFile k ∧
    (save_embedding_to_cache hash s cid t v).metaFile k = s.metaFile k := by
  simp [save_embedding_to_cache, hk]

/-- Helper: a save writes the vector and the digest of its own key. -/
theorem save_writes {α : Type} (hash : String → String) (s : CacheState α)
    (cid t : String) (v : α) :
    (save_embedding_to_cache hash s cid t v).vecFile cid = .good v ∧
    (save_embedding_to_cache hash s cid t v).metaFile cid = .good (hash t) := by
  simp [save_embedding_to_cache]

/-- Helper: the cache lookup reads only the two artifacts of its own key. -/
theorem load_cached_embedding_congr {α : Type} (hash : String → String)
    (s1 s2 : CacheState α) (cid t : String)
    (hv : s1.vecFile cid = s2.vecFile cid) (hm : s1.metaFile cid = s2.metaFile cid) :
    load_cached_embedding hash s1 cid t = load_cached_embedding hash s2 cid t := by
  unfold load_cached_embedding
  rw [hv, hm]

/-- Helper: the write-back phase leaves keys outside the chunk list
untouched, leaves the keys of cache hits untouched, and stamps every miss
with a stored vector and the digest of its text, for any computed vector
list of the right length and distinct chunk ids. -/
theorem insert_scan_state {α : Type} (hash : String → String) (st : CacheState α) :
    ∀ (chunks : List Chunk) (vs : List α) (st_run : CacheState α),
      vs.length = (scan_cache hash st chunks 0).2.2.length →
      chunks.Pairwise (fun a b => a.chunk_id ≠ b.chunk_id) →
      (∀ k, (∀ c ∈ chunks, c.chunk_id ≠ k) →
        (resolved_cache_state hash st chunks vs st_run).vecFile k = st_run.vecFile k ∧
        (resolved_cache_state hash st chunks vs st_run).metaFile k = st_run.metaFile k) ∧
      (∀ c ∈ chunks,
        (cache_hit hash st c = true →
          (resolved_cache_state hash st chunks vs st_run).vecFile c.chunk_id =
            st_run.vecFile c.chunk_id ∧
          (resolved_cache_state hash st chunks vs st_run).metaFile c.chunk_id =
            st_run.metaFile c.chunk_id) ∧
        (cache_hit hash st c = false →
          (∃ v, (resolved_cache_state hash st chunks vs st_run).vecFile c.chunk_id =
            FileState.good v) ∧
          (resolved_cache_state hash st chunks vs st_run).metaFile c.chunk_id =
            FileState.good (hash c.text))) := by
  intro chunks
  induction chunks with
  | nil =>
    intro vs st_run _ _
    constructor
    · intro k _
      simp [resolved_cache_state, scan_cache, insert_computed]
    · intro c hc
      simp at hc
  | cons c rest ih =>
    intro vs st_run hlen hpw
    have hpw1 : ∀ c2 ∈ rest, c.chunk_id ≠ c2.chunk_id := (List.pairwise_cons.mp hpw).1
    have hpw2 : rest.Pairwise (fun a b => a.chunk_id ≠ b.chunk_id) :=
      (List.pairwise_cons.mp hpw).2
    simp only [resolved_cache_state, scan_cache]
    rw [scan_cache_shift hash st rest (0 + 1)]
    simp only [Nat.zero_add]
    simp only [scan_cache] at hlen
    rw [scan_cache_shift hash st rest (0 + 1)] at hlen
    simp only [Nat.zero_add] at hlen
    rcases hl : load_cached_embedding hash st c.chunk_id c.text with ⟨o, b⟩
    rw [hl] at hlen
    cases o with
    | some e =>
      cases b with
      | true =>
        have hhit : cache_hit hash st c = true := by
          unfold cache_hit
          rw [hl]
        try dsimp only
        try dsimp only at hlen
        rw [List.zip_map_left, insert_computed_shift]
        have hlen2 : vs.length = (scan_cache hash st rest 0).2.2.length := by
          simpa using hlen
        obtain ⟨IH1, IH2⟩ := ih vs st_run hlen2 hpw2
        simp only [resolved_cache_state] at IH1 IH2
        constructor
        · intro k hk
          exact IH1 k (fun c2 hc2 => hk c2 (List.mem_cons_of_mem _ hc2))
        · intro c2 hc2
          rcases List.mem_cons.mp hc2 with rfl | hc3
          · refine ⟨fun _ => ?_, fun hmiss => ?_⟩
            · exact IH1 c2.chunk_id (fun c3 hc3 => (hpw1 c3 hc3).symm)
            · rw [hhit] at hmiss
              cases hmiss
          · exact IH2 c2 hc3
      | false =>
        have hmiss : cache_hit hash st c = false := by
          unfold cache_hit
          rw [hl]
        try dsimp only
        try dsimp only at hlen
        cases vs with
        | nil => simp at hlen
        | cons v0 vs2 =>
          rw [show ((0 : Nat) :: (scan_cache hash st rest 0).2.2.map (fun n => n + 1)).zip
                (v0 :: vs2) =
              ((0 : Nat), v0) ::
                ((scan_cache hash st rest 0).2.2.map (fun n => n + 1)).zip vs2 from rfl]
          simp only [insert_computed, List.getElem?_cons_zero]
          try dsimp only
          rw [show ((none : Option α) :: (scan_cache hash st rest 0).1).set 0 (some v0) =
              some v0 :: (scan_cache hash st rest 0).1 from rfl]
          rw [List.zip_map_left, insert_computed_shift]
          have hlen2 : vs2.length = (scan_cache hash st rest 0).2.2.length := by
            simpa using hlen
          obtain ⟨IH1, IH2⟩ :=
            ih vs2 (save_embedding_to_cache hash st_run c.chunk_id c.text v0) hlen2 hpw2
          simp only [resolved_cache_state] at IH1 IH2
          constructor
          · intro k hk
            have hknc : k ≠ c.chunk_id := fun h =>
              (hk c (List.mem_cons_self _ _)) h.symm
            obtain ⟨p1, p2⟩ :=
              IH1 k (fun c2 hc2 => hk c2 (List.mem_cons_of_mem _ hc2))
            obtain ⟨q1, q2⟩ := save_preserves hash st_run c.chunk_id c.text v0 k hknc
            exact ⟨p1.trans q1, p2.trans q2⟩
          · intro c2 hc2
            rcases List.mem_cons.mp hc2 with rfl | hc3
            · refine ⟨fun hh => ?_, fun _ => ?_⟩
              · rw [hmiss] at hh
                cases hh
              · obtain ⟨p1, p2⟩ :=
                  IH1 c2.chunk_id (fun c3 hc3 => (hpw1 c3 hc3).symm)
                obtain ⟨w1, w2⟩ := save_writes hash st_run c2.chunk_id c2.text v0
                exact ⟨⟨v0, p1.trans w1⟩, p2.trans w2⟩
            · obtain ⟨hh, hm⟩ := IH2 c2 hc3
              refine ⟨fun hhit2 => ?_, hm⟩
              obtain ⟨p1, p2⟩ := hh hhit2
              have hne : c2.chunk_id ≠ c.chunk_id := fun h => (hpw1 c2 hc3) h.symm
              obtain ⟨q1, q2⟩ :=
                save_preserves hash st_run c.chunk_id c.text v0 c2.chunk_id hne
              exact ⟨p1.trans q1, p2.trans q2⟩
    | none =>
      cases b <;>
      · have hmiss : cache_hit hash st c = false := by
          unfold cache_hit
          rw [hl]
        try dsimp only
        try dsimp only at hlen
        cases vs with
        | nil => simp at hlen
        | cons v0 vs2 =>
          rw [show ((0 : Nat) :: (scan_cache hash st rest 0).2.2.map (fun n => n + 1)).zip
                (v0 :: vs2) =
              ((0 : Nat), v0) ::
                ((scan_cache hash st rest 0).2.2.map (fun n => n + 1)).zip vs2 from rfl]
          simp only [insert_computed, List.getElem?_cons_zero]
          try dsimp only
          rw [show ((none : Option α) :: (scan_cache hash st rest 0).1).set 0 (some v0) =
              some v0 :: (scan_cache hash st rest 0).1 from rfl]
          rw [List.zip_map_left, insert_computed_shift]
          have hlen2 : vs2.length = (scan_cache hash st rest 0).2.2.length := by
            simpa using hlen
          obtain ⟨IH1, IH2⟩ :=
            ih vs2 (save_embedding_to_cache hash st_run c.chunk_id c.text v0) hlen2 hpw2
          simp only [resolved_cache_state] at IH1 IH2
          constructor
          · intro k hk
            have hknc : k ≠ c.chunk_id := fun h =>
              (hk c (List.mem_cons_self _ _)) h.symm
            obtain ⟨p1, p2⟩ :=
              IH1 k (fun c2 hc2 => hk c2 (List.mem_cons_of_mem _ hc2))
            obtain ⟨q1, q2⟩ := save_preserves hash st_run c.chunk_id c.text v0 k hknc
            exact ⟨p1.trans q1, p2.trans q2⟩
          · intro c2 hc2
            rcases List.mem_cons.mp hc2 with rfl | hc3
            · refine ⟨fun hh => ?_, fun _ => ?_⟩
              · rw [hmiss] at hh
                cases hh
              · obtain ⟨p1, p2⟩ :=
                  IH1 c2.chunk_id (fun c3 hc3 => (hpw1 c3 hc3).symm)
                obtain ⟨w1, w2⟩ := save_writes hash st_run c2.chunk_id c2.text v0
                exact ⟨⟨v0, p1.trans w1⟩, p2.trans w2⟩
            · obtain ⟨hh, hm⟩ := IH2 c2 hc3
              refine ⟨fun hhit2 => ?_, hm⟩
              obtain ⟨p1, p2⟩ := hh hhit2
              have hne : c2.chunk_id ≠ c.chunk_id := fun h => (hpw1 c2 hc3) h.symm
              obtain ⟨q1, q2⟩ :=
                save_preserves hash st_run c.chunk_id c.text v0 c2.chunk_id hne
              exact ⟨p1.trans q1, p2.trans q2⟩

/-- Helper: the empty string is invariant under strip. -/
theorem trim_empty_string : ("" : String).trim = "" := by
  show (match "".toSubstring with
      | { str := s, startPos := b, stopPos := e } =>
        let b := Substring.takeWhileAux s e Char.isWhitespace b
        let e := Substring.takeRightWhileAux s b Char.isWhitespace e
        ({ str := s, startPos := b, stopPos := e } : Substring)).toString = ""
  simp [String.toSubstring, Substring.takeWhileAux, Substring.takeRightWhileAux,
    Substring.toString, String.extract, String.endPos, String.utf8ByteSize]

/-- C4: cache idempotence.  After one completed call of
get_or_compute_embeddings, a second call with the identical (chunk_id, text)
pairs finds every chunk in cache: its miss-text list is empty, so the
embedding provider is invoked on zero texts and the computed count is 0.
Assumes the unique chunk ids of the data model, a digest without surrounding
whitespace (as the md5 hex digest of the source), and a provider returning
one vector per text. -/
theorem get_or_compute_embeddings_idempotent {α : Type} (hash : String → String)
    (embed_function : List String → List α) (chunks : List Chunk) (st : CacheState α)
    (hids : chunks.Pairwise (fun a b => a.chunk_id ≠ b.chunk_id))
    (htrim : ∀ t, (hash t).trim = hash t)
    (hlen : ∀ ts, (embed_function ts).length = ts.length) :
    (scan_cache hash (get_or_compute_embeddings hash embed_function chunks st).2.2
      chunks 0).2.1 = [] ∧
    (get_or_compute_embeddings hash embed_function chunks
      (get_or_compute_embeddings hash embed_function chunks st).2.2).2.1.computed = 0 := by
  have HITS : ∀ c ∈ chunks,
      cache_hit hash (get_or_compute_embeddings hash embed_function chunks st).2.2 c = true := by
    by_cases hemp : (scan_cache hash st chunks 0).2.1.isEmpty = true
    · have hs1st : (get_or_compute_embeddings hash embed_function chunks st).2.2 = st := by
        simp only [get_or_compute_embeddings, hemp, if_true]
      rw [hs1st]
      have hc1 := (scan_cache_components hash st chunks 0).1
      have hfil : chunks.filter (fun c => !cache_hit hash st c) = [] := by
        have hte : (scan_cache hash st chunks 0).2.1 = [] := List.isEmpty_iff.mp hemp
        rw [hc1] at hte
        exact List.map_eq_nil.mp hte
      intro c hc
      have := List.filter_eq_nil.mp hfil c hc
      simpa using this
    · have hs1r : (get_or_compute_embeddings hash embed_function chunks st).2.2 =
          resolved_cache_state hash st chunks
            (embed_function (scan_cache hash st chunks 0).2.1) st := by
        simp only [get_or_compute_embeddings, resolved_cache_state]
        rw [if_neg hemp]
      have hvslen : (embed_function (scan_cache hash st chunks 0).2.1).length =
          (scan_cache hash st chunks 0).2.2.length := by
        rw [hlen]
        exact (scan_cache_components hash st chunks 0).2.2.1
      obtain ⟨_, ST2⟩ :=
        insert_scan_state hash st chunks
          (embed_function (scan_cache hash st chunks 0).2.1) st hvslen hids
      intro c hc
      obtain ⟨hhitcase, hmisscase⟩ := ST2 c hc
      rw [hs1r]
      cases hhit : cache_hit hash st c with
      | true =>
        obtain ⟨pv, pm⟩ := hhitcase hhit
        unfold cache_hit
        rw [load_cached_embedding_congr hash _ st c.chunk_id c.text pv pm]
        exact hhit
      | false =>
        obtain ⟨⟨v, pv⟩, pm⟩ := hmisscase hhit
        unfold cache_hit load_cached_embedding
        rw [pv, pm]
        simp [htrim]
  have HT : (scan_cache hash (get_or_compute_embeddings hash embed_function chunks st).2.2
      chunks 0).2.1 = [] := by
    have hc1 := (scan_cache_components hash
      (get_or_compute_embeddings hash embed_function chunks st).2.2 chunks 0).1
    rw [hc1]
    have hfil : chunks.filter (fun c =>
        !cache_hit hash (get_or_compute_embeddings hash embed_function chunks st).2.2 c) = [] :=
      List.filter_eq_nil.mpr (fun c hc => by simp [HITS c hc])
    rw [hfil]
    rfl
  refine ⟨HT, ?_⟩
  set s1 := (get_or_compute_embeddings hash embed_function chunks st).2.2 with hs1def
  simp only [get_or_compute_embeddings]
  rw [HT]
  rfl

/-- Witness for C4 at a concrete chunk list over the empty cache (with a
constant whitespace-free digest function). -/
theorem get_or_compute_embeddings_idempotent_witness :
    (scan_cache (fun _ => "")
      (get_or_compute_embeddings (fun _ => "") (fun ts => ts.map (fun s => s.length))
        [⟨"a", "fa", "na", 1, 2, none, none, 3, "ta"⟩,
         ⟨"b", "fb", "nb", 1, 2, none, none, 3, "textb"⟩]
        (⟨fun _ => .missing, fun _ => .missing⟩ : CacheState Nat)).2.2
      [⟨"a", "fa", "na", 1, 2, none, none, 3, "ta"⟩,
       ⟨"b", "fb", "nb", 1, 2, none, none, 3, "textb"⟩] 0).2.1 = [] ∧
    (get_or_compute_embeddings (fun _ => "") (fun ts => ts.map (fun s => s.length))
      [⟨"a", "fa", "na", 1, 2, none, none, 3, "ta"⟩,
       ⟨"b", "fb", "nb", 1, 2, none, none, 3, "textb"⟩]
      (get_or_compute_embeddings (fun _ => "") (fun ts => ts.map (fun s => s.length))
        [⟨"a", "fa", "na", 1, 2, none, none, 3, "ta"⟩,
         ⟨"b", "fb", "nb", 1, 2, none, none, 3, "textb"⟩]
        (⟨fun _ => .missing, fun _ => .missing⟩ : CacheState Nat)).2.2).2.1.computed = 0 :=
  get_or_compute_embeddings_idempotent (fun _ => "") (fun ts => ts.map (fun s => s.length))
    [⟨"a", "fa", "na", 1, 2, none, none, 3, "ta"⟩,
     ⟨"b", "fb", "nb", 1, 2, none, none, 3, "textb"⟩]
    (⟨fun _ => .missing, fun _ => .missing⟩ : CacheState Nat)
    (by decide) (fun _ => trim_empty_string) (fun ts => by simp)

/-- Helper: a successful find-and-remove returns an item of the requested
exam and the queue is a permutation of the item consed on the remainder. -/
theorem find_remove_exam_perm (eid : String) :
    ∀ (items : List WorkItem) (it : WorkItem) (rest : List WorkItem),
      find_remove_exam eid items = some (it, rest) →
      items.Perm (it :: rest) ∧ it.exam_info.exam_id = eid := by
  intro items
  induction items with
  | nil =>
    intro it rest h
    simp [find_remove_exam] at h
  | cons x xs ih =>
    intro it rest h
    simp only [find_remove_exam] at h
    by_cases hx : x.exam_info.exam_id = eid
    · rw [if_pos hx] at h
      simp only [Option.some.injEq, Prod.mk.injEq] at h
      obtain ⟨rfl, rfl⟩ := h
      exact ⟨List.Perm.refl _, hx⟩
    · rw [if_neg hx] at h
      cases hfr : find_remove_exam eid xs with
      | none =>
        rw [hfr] at h
        simp at h
      | some p =>
        obtain ⟨it2, rest2⟩ := p
        rw [hfr] at h
        simp only [Option.some.injEq, Prod.mk.injEq] at h
        obtain ⟨rfl, rfl⟩ := h
        obtain ⟨hperm, heq⟩ := ih it2 rest2 hfr
        refine ⟨?_, heq⟩
        exact (hperm.cons x).trans (List.Perm.swap it2 x rest2)

/-- Helper: find-and-remove succeeds whenever the queue holds an item of the
requested exam. -/
theorem find_remove_exam_of_countP (eid : String) :
    ∀ items : List WorkItem,
      0 < items.countP (fun it => it.exam_info.exam_id == eid) →
      ∃ it rest, find_remove_exam eid items = some (it, rest) := by
  intro items
  induction items with
  | nil =>
    intro h
    simp at h
  | cons x xs ih =>
    intro h
    simp only [find_remove_exam]
    by_cases hx : x.exam_info.exam_id = eid
    · exact ⟨x, xs, by rw [if_pos hx]⟩
    · rw [List.countP_cons] at h
      have hx2 : (x.exam_info.exam_id == eid) = false := by
        simpa using hx
      rw [hx2, if_neg Bool.false_ne_true] at h
      obtain ⟨it, rest, hfr⟩ := ih (by omega)
      refine ⟨it, x :: rest, ?_⟩
      rw [if_neg hx, hfr]

/-- Helper: when every work item belongs to one of two distinct exams, the
two per-exam counts add up to the queue length. -/
theorem count_two_exams (eA eB : String) (hne : eA ≠ eB) :
    ∀ items : List WorkItem,
      (∀ it ∈ items, it.exam_info.exam_id = eA ∨ it.exam_info.exam_id = eB) →
      items.countP (fun it => it.exam_info.exam_id == eA) +
        items.countP (fun it => it.exam_info.exam_id == eB) = items.length := by
  intro items
  induction items with
  | nil =>
    intro _
    simp
  | cons x xs ih =>
    intro hall
    have hxs := ih (fun it h => hall it (List.mem_cons_of_mem _ h))
    rcases hall x (List.mem_cons_self _ _) with hx | hx
    · have h1 : (x.exam_info.exam_id == eA) = true := by simpa using hx
      have h2 : (x.exam_info.exam_id == eB) = false := by
        simp only [beq_eq_false_iff_ne, ne_eq]
        rw [hx]
        exact hne
      simp only [List.countP_cons, h1, h2, List.length_cons]
      rw [if_pos trivial, if_neg Bool.false_ne_true]
      omega
    · have h1 : (x.exam_info.exam_id == eA) = false := by
        simp only [beq_eq_false_iff_ne, ne_eq]
        rw [hx]
        exact fun h => hne h.symm
      have h2 : (x.exam_info.exam_id == eB) = true := by simpa using hx
      simp only [List.countP_cons, h1, h2, List.length_cons]
      rw [if_pos trivial, if_neg Bool.false_ne_true]
      omega

/-- Helper: over two distinct exams whose queued items all take d minutes,
the balanced selection loop terminates within fuel equal to the queue length
and accumulates exactly (initial count plus queued count) times d minutes
per exam, provided the starting minutes are p by d and q by d with
p + remaining(A) = q + remaining(B). -/
theorem balanced_loop_sym (eA eB : String) (d : Int) (hne : eA ≠ eB) (hd : 0 < d) :
    ∀ (n : Nat) (items : List WorkItem) (m : String → Int) (acc : List WorkItem)
      (p q : Nat),
      items.length = n →
      (∀ it ∈ items, it.minutes = d ∧
        (it.exam_info.exam_id = eA ∨ it.exam_info.exam_id = eB)) →
      m eA = (p : Int) * d → m eB = (q : Int) * d →
      p + items.countP (fun it => it.exam_info.exam_id == eA) =
        q + items.countP (fun it => it.exam_info.exam_id == eB) →
      ∃ sched m2, balanced_loop [eA, eB] n items m acc = some (sched, m2) ∧
        m2 eA = ((p + items.countP (fun it => it.exam_info.exam_id == eA) : Nat) : Int) * d ∧
        m2 eB = ((q + items.countP (fun it => it.exam_info.exam_id == eB) : Nat) : Int) * d := by
  intro n
  induction n with
  | zero =>
    intro items m acc p q hlen hall hA hB hbal
    have hnil : items = [] := List.length_eq_zero.mp hlen
    subst hnil
    refine ⟨acc.reverse, m, rfl, ?_, ?_⟩
    · simpa using hA
    · simpa using hB
  | succ n ih =>
    intro items m acc p q hlen hall hA hB hbal
    cases items with
    | nil => simp at hlen
    | cons x xs =>
      have hsum := count_two_exams eA eB hne (x :: xs) (fun it h => (hall it h).2)
      have hlc : (x :: xs).length = n + 1 := hlen
      have hlen2 : xs.length = n := by simpa using hlen
      by_cases hcmp : m eB < m eA
      · -- the loop picks exam B
        have hq : (q : Int) * d < (p : Int) * d := by rw [← hA, ← hB]; exact hcmp
        have hqp : q < p := by
          have h2 : (q : Int) < (p : Int) := lt_of_mul_lt_mul_right hq hd.le
          exact_mod_cast h2
        have hbpos : 0 < (x :: xs).countP (fun it => it.exam_info.exam_id == eB) := by
          omega
        obtain ⟨it, rest, hfr⟩ := find_remove_exam_of_countP eB (x :: xs) hbpos
        obtain ⟨hperm, heid⟩ := find_remove_exam_perm eB (x :: xs) it rest hfr
        have hmem : it ∈ x :: xs := hperm.mem_iff.mpr (List.mem_cons_self _ _)
        have hitmin : it.minutes = d := (hall it hmem).1
        have hrestlen : rest.length = n := by
          have hpl := hperm.length_eq
          simp only [List.length_cons] at hpl
          omega
        have hrestall : ∀ it2 ∈ rest, it2.minutes = d ∧
            (it2.exam_info.exam_id = eA ∨ it2.exam_info.exam_id = eB) :=
          fun it2 h2 => hall it2 (hperm.mem_iff.mpr (List.mem_cons_of_mem _ h2))
        have hidA : (it.exam_info.exam_id == eA) = false := by
          simp only [beq_eq_false_iff_ne, ne_eq, heid]
          exact fun h => hne h.symm
        have hidB : (it.exam_info.exam_id == eB) = true := by simpa using heid
        have hcA : (x :: xs).countP (fun it => it.exam_info.exam_id == eA) =
            rest.countP (fun it => it.exam_info.exam_id == eA) := by
          rw [hperm.countP_eq]
          simp [List.countP_cons, hidA]
        have hcB : (x :: xs).countP (fun it => it.exam_info.exam_id == eB) =
            rest.countP (fun it => it.exam_info.exam_id == eB) + 1 := by
          rw [hperm.countP_eq]
          simp [List.countP_cons, hidB]
        set m1 : String → Int := fun e => if e = eB then m e + it.minutes else m e with hm1
        have hm1A : m1 eA = (p : Int) * d := by
          show (if eA = eB then m eA + it.minutes else m eA) = (p : Int) * d
          rw [if_neg hne, hA]
        have hm1B : m1 eB = ((q + 1 : Nat) : Int) * d := by
          show (if eB = eB then m eB + it.minutes else m eB) = ((q + 1 : Nat) : Int) * d
          rw [if_pos rfl, hitmin, hB]
          push_cast
          ring
        obtain ⟨sched, m2, hloop, h2A, h2B⟩ :=
          ih rest m1 (it :: acc) p (q + 1) hrestlen hrestall hm1A hm1B (by omega)
        refine ⟨sched, m2, ?_, ?_, ?_⟩
        · simp only [balanced_loop]
          try dsimp only
          rw [show pick_min_exam m [eA, eB] = some (if m eB < m eA then eB else eA) from rfl]
          rw [if_pos hcmp]
          try dsimp only
          rw [hfr]
          try dsimp only
          exact hloop
        · rw [hcA]
          exact h2A
        · rw [hcB]
          rw [show q + (rest.countP (fun it => it.exam_info.exam_id == eB) + 1) =
              (q + 1) + rest.countP (fun it => it.exam_info.exam_id == eB) from by omega]
          exact h2B
      · -- the loop picks exam A
        have hq : (p : Int) * d ≤ (q : Int) * d := by
          rw [← hA, ← hB]
          exact le_of_not_lt hcmp
        have hpq : p ≤ q := by
          have h2 : (p : Int) ≤ (q : Int) := le_of_mul_le_mul_right hq hd
          exact_mod_cast h2
        have hapos : 0 < (x :: xs).countP (fun it => it.exam_info.exam_id == eA) := by
          omega
        obtain ⟨it, rest, hfr⟩ := find_remove_exam_of_countP eA (x :: xs) hapos
        obtain ⟨hperm, heid⟩ := find_remove_exam_perm eA (x :: xs) it rest hfr
        have hmem : it ∈ x :: xs := hperm.mem_iff.mpr (List.mem_cons_self _ _)
        have hitmin : it.minutes = d := (hall it hmem).1
        have hrestlen : rest.length = n := by
          have hpl := hperm.length_eq
          simp only [List.length_cons] at hpl
          omega
        have hrestall : ∀ it2 ∈ rest, it2.minutes = d ∧
            (it2.exam_info.exam_id = eA ∨ it2.exam_info.exam_id = eB) :=
          fun it2 h2 => hall it2 (hperm.mem_iff.mpr (List.mem_cons_of_mem _ h2))
        have hidA : (it.exam_info.exam_id == eA) = true := by simpa using heid
        have hidB : (it.exam_info.exam_id == eB) = false := by
          simp only [beq_eq_false_iff_ne, ne_eq, heid]
          exact hne
        have hcA : (x :: xs).countP (fun it => it.exam_info.exam_id == eA) =
            rest.countP (fun it => it.exam_info.exam_id == eA) + 1 := by
          rw [hperm.countP_eq]
          simp [List.countP_cons, hidA]
        have hcB : (x :: xs).countP (fun it => it.exam_info.exam_id == eB) =
            rest.countP (fun it => it.exam_info.exam_id == eB) := by
          rw [hperm.countP_eq]
          simp [List.countP_cons, hidB]
        set m1 : String → Int := fun e => if e = eA then m e + it.minutes else m e with hm1
        have hm1A : m1 eA = ((p + 1 : Nat) : Int) * d := by
          show (if eA = eA then m eA + it.minutes else m eA) = ((p + 1 : Nat) : Int) * d
          rw [if_pos rfl, hitmin, hA]
          push_cast
          ring
        have hm1B : m1 eB = (q : Int) * d := by
          show (if eB = eA then m eB + it.minutes else m eB) = (q : Int) * d
          rw [if_neg (fun h => hne h.symm), hB]
        obtain ⟨sched, m2, hloop, h2A, h2B⟩ :=
          ih rest m1 (it :: acc) (p + 1) q hrestlen hrestall hm1A hm1B (by omega)
        refine ⟨sched, m2, ?_, ?_, ?_⟩
        · simp only [balanced_loop]
          try dsimp only
          rw [show pick_min_exam m [eA, eB] = some (if m eB < m eA then eB else eA) from rfl]
          rw [if_neg hcmp]
          try dsimp only
          rw [hfr]
          try dsimp only
          exact hloop
        · rw [hcA]
          rw [show p + (rest.countP (fun it => it.exam_info.exam_id == eA) + 1) =
              (p + 1) + rest.countP (fun it => it.exam_info.exam_id == eA) from by omega]
          exact h2A
        · rw [hcB]
          exact h2B

/-- C7: under the balanced strategy, for two exams with equal topic counts
and equal per-topic duration, the run terminates with a schedule whose two
cumulative per-exam totals differ by at most one topic duration (they are in
fact equal). -/
theorem balanced_strategy_fair (eA eB : String) (items : List WorkItem)
    (d : Int) (n : Nat) (hne : eA ≠ eB) (hd : 0 < d)
    (hall : ∀ it ∈ items, it.minutes = d ∧
      (it.exam_info.exam_id = eA ∨ it.exam_info.exam_id = eB))
    (hcA : items.countP (fun it => it.exam_info.exam_id == eA) = n)
    (hcB : items.countP (fun it => it.exam_info.exam_id == eB) = n) :
    balanced_gap_within eA eB items d := by
  simp only [balanced_gap_within, balanced_schedule]
  have hperm : (List.insertionSort work_item_le items).Perm items :=
    List.perm_insertionSort _ _
  have hall2 : ∀ it ∈ List.insertionSort work_item_le items, it.minutes = d ∧
      (it.exam_info.exam_id = eA ∨ it.exam_info.exam_id = eB) :=
    fun it h => hall it (hperm.mem_iff.mp h)
  have hcA2 : (List.insertionSort work_item_le items).countP
      (fun it => it.exam_info.exam_id == eA) = n := by
    rw [hperm.countP_eq]
    exact hcA
  have hcB2 : (List.insertionSort work_item_le items).countP
      (fun it => it.exam_info.exam_id == eB) = n := by
    rw [hperm.countP_eq]
    exact hcB
  obtain ⟨sched, m2, hloop, h2A, h2B⟩ :=
    balanced_loop_sym eA eB d hne hd (List.insertionSort work_item_le items).length
      (List.insertionSort work_item_le items) (fun _ => 0) [] 0 0 rfl hall2
      (by simp) (by simp) (by rw [hcA2, hcB2])
  rw [hloop]
  show |m2 eA - m2 eB| ≤ d
  rw [h2A, h2B, hcA2, hcB2]
  rw [sub_self, abs_zero]
  exact hd.le

/-- Witness for C7: one 45-minute topic per exam for two exams. -/
theorem balanced_strategy_fair_witness :
    balanced_gap_within "A" "B"
      [⟨⟨1, "T", "a1", ⟨"", "", []⟩, [], [], 0, 0, "", []⟩,
        ⟨"A", "Exam A", none, "C", ""⟩, 0, 45, .medium, ""⟩,
       ⟨⟨1, "T", "b1", ⟨"", "", []⟩, [], [], 0, 0, "", []⟩,
        ⟨"B", "Exam B", none, "C", ""⟩, 1, 45, .medium, ""⟩] 45 :=
  balanced_strategy_fair "A" "B" _ 45 1 (by decide) (by decide) (by decide)
    (by decide) (by decide)

end App
